import Mathlib

/-!
The wy menu framework.

A shallow embedding of `include/wy/menu.h` (the item storage, the menu engine with its
display loop and breadcrumb walk) and of `include/wy/menu-console.h`.

Modelling conventions.

* Menu objects live at addresses (`Addr`); `m_parent` is an optional address and the
  heap maps every address to the menu object stored there.
* The virtual member functions of `menu` are the fields of `Hooks`: they act on the state `σ`
  of the presentation layer.  The callables stored in the items act on the whole world
  (every menu object and `σ`), since an item may push entries or wire parents.
* Every run returns the list of calls it made (`Event`), oldest first.
* `size_t` is 64 bits wide; the one addition made on it in `display` wraps modulo `SIZE_MOD`.
* The loops with no static bound (`display`, the recursion of `breadcrumb`) take fuel.
-/

namespace wy

/-- Address of a menu object. -/
abbrev Addr := Nat

/-- Number of values of `size_t`. -/
def SIZE_MOD : Nat := 2 ^ 64

/-- Control signal returned by an item: `enum class retval`. -/
inductive retval where
  | quit_
  | return_
  | pause_
  deriving DecidableEq, Repr

/-- Member function bound by a `methodItem`: `&menu::menuExit` or some other member function,
named by a number. -/
inductive Method where
  | menuExit
  | other (id : Nat)
  deriving DecidableEq, Repr

/-- Heap-allocated item, `basicItem` with its two subclasses: `methodItem` holds a member
function and the object it is called on, `functionItem` holds a callable (named by a number). -/
inductive basicItem where
  | methodItem (m_method : Method) (m_handler : Addr)
  | functionItem (m_functor : Nat)
  deriving DecidableEq, Repr

/-- Wrapper around the vector of `(label, item)` tuples: `class storage`. -/
structure storage where
  m_entries : List (String × basicItem)
  deriving DecidableEq, Repr

/-- Body of `storage::clear`: the branch that deletes the items and empties the vector is taken
when `m_entries.empty()` holds.  The second component lists the items that were deleted. -/
def storage.clear (s : storage) : storage × List basicItem :=
  if s.m_entries.isEmpty then
    (⟨[]⟩, s.m_entries.map Prod.snd)
  else
    (s, [])

/-- Member `storage::size`. -/
def storage.size (s : storage) : Nat := s.m_entries.length

/-- Unchecked `storage::operator[]`: `none` stands for an access outside the vector. -/
def storage.index (s : storage) (idx : Nat) : Option (String × basicItem) := s.m_entries.get? idx

/-- Member `storage::push`. -/
def storage.push (s : storage) (str : String) (item : basicItem) : storage :=
  ⟨s.m_entries ++ [(str, item)]⟩

/-- Member `storage::empty`. -/
def storage.empty (s : storage) : Bool := s.m_entries.isEmpty

/-- Data members of `class menu`. -/
structure menu where
  m_parent : Option Addr
  m_sep : String
  m_storage : storage
  deriving DecidableEq, Repr

/-- Member `menu::menuExit`. -/
def menu.menuExit : retval := retval.quit_

/-- Member `menu::clearMenu`. -/
def menu.clearMenu (m : menu) : menu := { m with m_storage := m.m_storage.clear.1 }

/-- Member `menu::setParent`. -/
def menu.setParent (m : menu) (parent : Addr) : menu := { m with m_parent := some parent }

/-- Member `menu::setBreadcrumbSeparator`. -/
def menu.setBreadcrumbSeparator (m : menu) (sep : String) : menu := { m with m_sep := sep }

/-- Member `menu::menuSize`. -/
def menu.menuSize (m : menu) : Nat := m.m_storage.size

/-- Overload `menu::push(menuText, entry, cv)`: stores a new `methodItem`. -/
def menu.push (m : menu) (menuText : String) (entry : Method) (cv : Addr) : menu :=
  { m with m_storage := m.m_storage.push menuText (basicItem.methodItem entry cv) }

/-- Overload `menu::push(menuText, f)`: stores a new `functionItem`. -/
def menu.pushFunctor (m : menu) (menuText : String) (f : Nat) : menu :=
  { m with m_storage := m.m_storage.push menuText (basicItem.functionItem f) }

/-- Member `menu::setExitMenuText`, called on the object at address `this`. -/
def menu.setExitMenuText (this : Addr) (m : menu) (exitStr : String) : menu :=
  if !m.m_storage.empty then
    match m.m_storage.m_entries with
    | [] => m
    | (_, item) :: rest => { m with m_storage := ⟨(exitStr, item) :: rest⟩ }
  else
    m.push exitStr Method.menuExit this

/-- Constructor `menu::menu()` of the object at address `this`: `m_parent` is null, `m_sep` and
`m_storage` are default-constructed, then `setExitMenuText("Exit")` runs. -/
def menu.ctor (this : Addr) : menu :=
  menu.setExitMenuText this ⟨none, "", ⟨[]⟩⟩ "Exit"

/-- Public (and protected) operations that write a menu object. -/
inductive Op where
  | push (menuText : String) (entry : Method) (cv : Addr)
  | pushFunctor (menuText : String) (f : Nat)
  | clearMenu
  | setParent (parent : Addr)
  | setBreadcrumbSeparator (sep : String)
  | setExitMenuText (exitStr : String)
  deriving DecidableEq, Repr

/-- Effect of one operation on the menu object at address `this`. -/
def Op.apply (this : Addr) (m : menu) : Op → menu
  | Op.push menuText entry cv => m.push menuText entry cv
  | Op.pushFunctor menuText f => m.pushFunctor menuText f
  | Op.clearMenu => m.clearMenu
  | Op.setParent parent => m.setParent parent
  | Op.setBreadcrumbSeparator sep => m.setBreadcrumbSeparator sep
  | Op.setExitMenuText exitStr => menu.setExitMenuText this m exitStr

/-- Menu object at address `this` after its constructor and the operations `ops`, in order. -/
def menu.build (this : Addr) (ops : List Op) : menu :=
  ops.foldl (Op.apply this) (menu.ctor this)

/-- Everything an item can reach: the menu objects and the presentation state. -/
structure World (σ : Type) where
  heap : Addr → menu
  user : σ

/-- Virtual member functions of `menu` (first argument: the object they are called on) and the
behaviour of the callables bound in the items. -/
structure Hooks (σ : Type) where
  onBreadCrumb : Addr → σ → Bool × σ
  onBeforeBreadCrumb : Addr → σ → σ
  onAfterBreadCrumb : Addr → σ → σ
  onBreadCrumbSep : Addr → String → σ → σ
  displayItem : Addr → Nat → String → σ → σ
  userInput : Addr → σ → Nat × σ
  onPause : Addr → σ → σ
  onBadInput : Addr → Nat → σ → Bool × σ
  onStartMenu : Addr → σ → σ
  onExitMenu : Addr → σ → σ
  method : Nat → Addr → World σ → retval × World σ
  functor : Nat → World σ → retval × World σ

/-- Calls made by the engine, with their arguments and results. -/
inductive Event where
  | onStartMenu (a : Addr)
  | onBeforeBreadCrumb (a : Addr)
  | onBreadCrumb (a : Addr) (result : Bool)
  | onBreadCrumbSep (a : Addr) (str : String)
  | onAfterBreadCrumb (a : Addr)
  | displayItem (a : Addr) (index : Nat) (item : String)
  | userInput (a : Addr) (result : Nat)
  | invoke (item : basicItem) (result : retval)
  | onPause (a : Addr)
  | onBadInput (a : Addr) (badIndex : Nat) (result : Bool)
  | onExitMenu (a : Addr)
  deriving DecidableEq, Repr

/-- Ways a run of the model can fail to produce a result. -/
inductive Fault where
  | outOfFuel
  | outOfRange
  deriving DecidableEq, Repr

/-- Virtual `basicItem::invoke`: a `methodItem` calls its member function on its handler, a
`functionItem` calls its callable. -/
def basicItem.invoke {σ : Type} (h : Hooks σ) : basicItem → World σ → retval × World σ
  | basicItem.methodItem Method.menuExit _, w => (menu.menuExit, w)
  | basicItem.methodItem (Method.other id) handler, w => h.method id handler w
  | basicItem.functionItem f, w => h.functor f w

/-- Member `menu::breadcrumb` of the object at `this`; the recursion into the parent uses fuel. -/
def breadcrumb {σ : Type} (h : Hooks σ) (heap : Addr → menu) :
    Nat → Addr → σ → Except Fault (Bool × σ × List Event)
  | 0, _, _ => Except.error Fault.outOfFuel
  | fuel + 1, this, s =>
    let ahead : Except Fault (σ × List Event) :=
      match (heap this).m_parent with
      | none => Except.ok (s, [])
      | some parent =>
        match breadcrumb h heap fuel parent s with
        | Except.error e => Except.error e
        | Except.ok (b, s1, t1) =>
          if b then
            Except.ok (h.onBreadCrumbSep this (heap this).m_sep s1,
              t1 ++ [Event.onBreadCrumbSep this (heap this).m_sep])
          else
            Except.ok (s1, t1)
    match ahead with
    | Except.error e => Except.error e
    | Except.ok (s2, t2) =>
      let r := h.onBreadCrumb this s2
      Except.ok (r.1, r.2, t2 ++ [Event.onBreadCrumb this r.1])

/-- Member `menu::_breadcrumb`. -/
def _breadcrumb {σ : Type} (h : Hooks σ) (heap : Addr → menu) (fuel : Nat) (this : Addr) (s : σ) :
    Except Fault (σ × List Event) :=
  match breadcrumb h heap fuel this (h.onBeforeBreadCrumb this s) with
  | Except.error e => Except.error e
  | Except.ok (_, s1, t) =>
    Except.ok (h.onAfterBreadCrumb this s1,
      [Event.onBeforeBreadCrumb this] ++ t ++ [Event.onAfterBreadCrumb this])

/-- The range-for loop of `display` over the entries, with its counter `index`. -/
def renderLoop {σ : Type} (h : Hooks σ) (this : Addr) :
    List (String × basicItem) → Nat → σ → σ × List Event
  | [], _, s => (s, [])
  | item :: rest, index, s =>
    if index ≠ 0 then
      let r := renderLoop h this rest (index + 1) (h.displayItem this index item.1 s)
      (r.1, Event.displayItem this index item.1 :: r.2)
    else
      renderLoop h this rest (index + 1) s

/-- First part of the body of the loop of `display`: `onStartMenu`, `_breadcrumb`, the items, and
the selection read by `userInput`, which is returned. -/
def frame {σ : Type} (h : Hooks σ) (depth : Nat) (this : Addr) (w : World σ) :
    Except Fault (Nat × World σ × List Event) :=
  match _breadcrumb h w.heap depth this (h.onStartMenu this w.user) with
  | Except.error e => Except.error e
  | Except.ok (s1, tb) =>
    let r := renderLoop h this (w.heap this).m_storage.m_entries 0 s1
    match (w.heap this).m_storage.index 0 with
    | none => Except.error Fault.outOfRange
    | some first =>
      let input := h.userInput this (h.displayItem this 0 first.1 r.1)
      Except.ok (input.1, ⟨w.heap, input.2⟩,
        [Event.onStartMenu this] ++ tb ++ r.2 ++
          [Event.displayItem this 0 first.1, Event.userInput this input.1])

/-- Second part of the body of the loop of `display`, from the range check on `input` on.
The first component of the result is `none` after `break`, and otherwise the value of `input`
when the loop condition is reached. -/
def dispatch {σ : Type} (h : Hooks σ) (this : Addr) (init input : Nat) (w : World σ) :
    Except Fault (Option Nat × World σ × List Event) :=
  if input < (w.heap this).m_storage.size then
    match (w.heap this).m_storage.index input with
    | none => Except.error Fault.outOfRange
    | some tuple =>
      let invokeMe := tuple.2
      match invokeMe.invoke h w with
      | (retval.quit_, w1) =>
        Except.ok (some 0, ⟨w1.heap, h.onExitMenu this w1.user⟩,
          [Event.invoke invokeMe retval.quit_, Event.onExitMenu this])
      | (retval.pause_, w1) =>
        Except.ok (some input, ⟨w1.heap, h.onPause this w1.user⟩,
          [Event.invoke invokeMe retval.pause_, Event.onPause this])
      | (retval.return_, w1) =>
        Except.ok (some input, w1, [Event.invoke invokeMe retval.return_])
  else
    let r := h.onBadInput this input w.user
    if r.1 = false then
      Except.ok (none, ⟨w.heap, h.onExitMenu this r.2⟩,
        [Event.onBadInput this input false, Event.onExitMenu this])
    else
      Except.ok (some init, ⟨w.heap, h.onPause this r.2⟩,
        [Event.onBadInput this input true, Event.onPause this])

/-- Loop condition `while (input != 0)`, false after `break`. -/
def again : Option Nat → Bool
  | none => false
  | some input => input ≠ 0

/-- One pass through the body of the loop of `display`. -/
def iteration {σ : Type} (h : Hooks σ) (depth : Nat) (this : Addr) (init : Nat) (w : World σ) :
    Except Fault (Option Nat × World σ × List Event) :=
  match frame h depth this w with
  | Except.error e => Except.error e
  | Except.ok (input, w1, t1) =>
    match dispatch h this init input w1 with
    | Except.error e => Except.error e
    | Except.ok (ctl, w2, t2) => Except.ok (ctl, w2, t1 ++ t2)

/-- Result of the remaining passes, with the calls `t1` of the passes before put in front. -/
def after {σ : Type} (t1 : List Event) :
    Except Fault (World σ × List Event) → Except Fault (World σ × List Event)
  | Except.error e => Except.error e
  | Except.ok (w2, t2) => Except.ok (w2, t1 ++ t2)

/-- The do-while loop of `display`, run for at most `fuel` passes. -/
def displayLoop {σ : Type} (h : Hooks σ) (depth : Nat) (this : Addr) (init : Nat) :
    Nat → World σ → Except Fault (World σ × List Event)
  | 0, _ => Except.error Fault.outOfFuel
  | fuel + 1, w =>
    match iteration h depth this init w with
    | Except.error e => Except.error e
    | Except.ok (ctl, w1, t1) =>
      if again ctl then
        after t1 (displayLoop h depth this init fuel w1)
      else
        Except.ok (w1, t1)

/-- Member `menu::display` of the object at `this`. -/
def display {σ : Type} (h : Hooks σ) (depth fuel : Nat) (this : Addr) (w : World σ) :
    Except Fault (World σ × List Event) :=
  displayLoop h depth this (((w.heap this).menuSize + 1) % SIZE_MOD) fuel w

/-! ### Predicates used in the statements -/

/-- Index 0 of the menu at `this` holds the exit item: `menuExit` bound to the menu itself. -/
def hasExit (this : Addr) (m : menu) : Prop :=
  ∃ label rest,
    m.m_storage.m_entries = (label, basicItem.methodItem Method.menuExit this) :: rest

/-- The condition under which a pass of the loop is the last one, for the selection `input` made
in world `w`: an item in range whose action returns `quit_`, or a selection out of range for
which `onBadInput` returns false. -/
def stops {σ : Type} (h : Hooks σ) (this : Addr) (input : Nat) (w : World σ) : Prop :=
  (input < (w.heap this).menuSize ∧
      ∃ tuple, (w.heap this).m_storage.index input = some tuple ∧
        (tuple.2.invoke h w).1 = retval.quit_) ∨
    ((w.heap this).menuSize ≤ input ∧ (h.onBadInput this input w.user).1 = false)

/-- The addresses `ms`, read root first, form a parent chain hanging below `above`: the first
has parent `above` and each later one has the one before it as parent. -/
def isChain (heap : Addr → menu) : Option Addr → List Addr → Bool
  | _, [] => true
  | above, m :: rest => decide ((heap m).m_parent = above) && isChain heap (some m) rest

/-- The breadcrumb trail in the words of the specification, for a chain read root first: each
menu renders its identity with `onBreadCrumb`, and a separator is rendered before it exactly when
the identity rendered just before signalled true (`shown`; false ahead of the root).  The result
is the last signal, the presentation state and the calls made. -/
def trail {σ : Type} (h : Hooks σ) (heap : Addr → menu) :
    List Addr → Bool → σ → Bool × σ × List Event
  | [], shown, s => (shown, s, [])
  | m :: rest, shown, s =>
    let s1 := if shown then h.onBreadCrumbSep m (heap m).m_sep s else s
    let t1 := if shown then [Event.onBreadCrumbSep m (heap m).m_sep] else []
    let r := h.onBreadCrumb m s1
    let next := trail h heap rest r.1 r.2
    (next.1, next.2.1, t1 ++ [Event.onBreadCrumb m r.1] ++ next.2.2)

/-- Calls of `displayItem`. -/
def isDisplayItem : Event → Bool
  | Event.displayItem _ _ _ => true
  | _ => false

/-- Calls made by the breadcrumb walk. -/
def isCrumb : Event → Bool
  | Event.onBeforeBreadCrumb _ => true
  | Event.onBreadCrumb _ _ => true
  | Event.onBreadCrumbSep _ _ => true
  | Event.onAfterBreadCrumb _ => true
  | _ => false

/-- Calls of `invoke` on an item. -/
def isInvoke : Event → Bool
  | Event.invoke _ _ => true
  | _ => false

/-- The two overloads of `push`. -/
def Op.isPush : Op → Bool
  | Op.push _ _ _ => true
  | Op.pushFunctor _ _ => true
  | _ => false

/-- Entry appended by an operation: one for each overload of `push`, none otherwise. -/
def Op.pushed : Op → List (String × basicItem)
  | Op.push menuText entry cv => [(menuText, basicItem.methodItem entry cv)]
  | Op.pushFunctor menuText f => [(menuText, basicItem.functionItem f)]
  | _ => []

/-- Entries appended by a sequence of operations, in order. -/
def pushedBy : List Op → List (String × basicItem)
  | [] => []
  | op :: ops => op.pushed ++ pushedBy ops

/-- Label given to the exit item by a sequence of operations that starts from the label `text`:
the argument of the last `setExitMenuText`, if any. -/
def exitText (text : String) : List Op → String
  | [] => text
  | Op.setExitMenuText exitStr :: ops => exitText exitStr ops
  | _ :: ops => exitText text ops

/-! ### A scripted presentation layer, used to run the model on concrete menus -/

/-- Scripted hooks over a queue of selections: `userInput` takes the next selection (the largest
`size_t` once the queue is empty), `onBreadCrumb` answers `crumb`, `onBadInput` answers `bad`,
and every callable returns `act` of its number without touching the world. -/
def scripted (crumb : Addr → Bool) (bad : Nat → Bool) (act : Nat → retval) : Hooks (List Nat) where
  onBreadCrumb := fun a s => (crumb a, s)
  onBeforeBreadCrumb := fun _ s => s
  onAfterBreadCrumb := fun _ s => s
  onBreadCrumbSep := fun _ _ s => s
  displayItem := fun _ _ _ s => s
  userInput := fun _ s => (s.headD (SIZE_MOD - 1), s.tail)
  onPause := fun _ s => s
  onBadInput := fun _ v s => (bad v, s)
  onStartMenu := fun _ s => s
  onExitMenu := fun _ s => s
  method := fun id _ w => (act id, w)
  functor := fun f w => (act f, w)

/-- Scripted hooks for the examples: no menu shows in the breadcrumb trail, bad input continues,
callable 1 returns `return_`, callable 2 returns `pause_` and any other returns `quit_`. -/
def demoHooks : Hooks (List Nat) :=
  scripted (fun _ => false) (fun _ => true)
    (fun k => if k = 1 then retval.return_ else if k = 2 then retval.pause_ else retval.quit_)

/-- Scripted hooks for the examples: every menu shows in the breadcrumb trail, bad input ends
the menu, and every callable returns `return_`. -/
def strictHooks : Hooks (List Nat) :=
  scripted (fun _ => true) (fun _ => false) (fun _ => retval.return_)

/-- The menu `[Exit, Foo, Bar]` at address 0: two callables pushed after construction. -/
def fooBar : menu :=
  menu.build 0 [Op.pushFunctor "Foo" 1, Op.pushFunctor "Bar" 2]

/-- A world whose every address holds `fooBar`'s items; selections are queued in `inputs`. -/
def fooBarWorld (inputs : List Nat) : World (List Nat) := ⟨fun _ => fooBar, inputs⟩

/-- Three nested menus: the root at address 0, A at 1 with parent 0, B at any other address with
parent 1.  A renders the separator " >> " and B the separator " / ". -/
def nested : Addr → menu
  | 0 => menu.build 0 []
  | 1 => menu.build 1 [Op.setParent 0, Op.setBreadcrumbSeparator " >> "]
  | _ => menu.build 2 [Op.setParent 1, Op.setBreadcrumbSeparator " / "]

/-- A parent menu `[Exit, Sub]` at address 0 and, at every other address, a child menu `[Exit]`
whose parent is 0. -/
def family : Addr → menu
  | 0 => menu.build 0 [Op.pushFunctor "Sub" 9]
  | _ => menu.build 1 [Op.setParent 0]

/-- Hooks for `family`: callable 9 runs the child menu at address 1 to completion and returns
`return_`; everything else is as in `demoHooks`. -/
def familyHooks : Hooks (List Nat) :=
  { demoHooks with
    functor := fun f w =>
      if f = 9 then
        match display demoHooks 2 5 1 w with
        | Except.ok (w1, _) => (retval.return_, w1)
        | Except.error _ => (retval.quit_, w)
      else demoHooks.functor f w }

/-- The calls of one frame of `fooBar` in which `userInput` returns `input`. -/
def fooBarFrame (input : Nat) : List Event :=
  [Event.onStartMenu 0, Event.onBeforeBreadCrumb 0, Event.onBreadCrumb 0 false,
    Event.onAfterBreadCrumb 0, Event.displayItem 0 1 "Foo", Event.displayItem 0 2 "Bar",
    Event.displayItem 0 0 "Exit", Event.userInput 0 input]

/-- The calls of `display` on `fooBar` for the selections 1, 2, 7, 0 under `demoHooks`. -/
def fooBarRun : List Event :=
  fooBarFrame 1 ++ [Event.invoke (basicItem.functionItem 1) retval.return_] ++
    fooBarFrame 2 ++ [Event.invoke (basicItem.functionItem 2) retval.pause_, Event.onPause 0] ++
    fooBarFrame 7 ++ [Event.onBadInput 0 7 true, Event.onPause 0] ++
    fooBarFrame 0 ++
      [Event.invoke (basicItem.methodItem Method.menuExit 0) retval.quit_, Event.onExitMenu 0]

/-! ### Parent links -/

/-- The heap after the call `child.setParent(parent)`. -/
def setParentAt (heap : Addr → menu) (child parent : Addr) : Addr → menu :=
  fun a => if a = child then (heap a).setParent parent else heap a

/-- The heap after a sequence of calls of `setParent`, each given as (child, parent). -/
def wire (heap : Addr → menu) (calls : List (Addr × Addr)) : Addr → menu :=
  calls.foldl (fun hp c => setParentAt hp c.1 c.2) heap

/-- The menu reached from `a` by following `m_parent` `n` times; `none` once a null link has been
met. -/
def ancestor (heap : Addr → menu) : Nat → Addr → Option Addr
  | 0, a => some a
  | n + 1, a =>
    match (heap a).m_parent with
    | none => none
    | some parent => ancestor heap n parent

/-- Every call of the sequence gives, at the time it is made, a parent that is neither the menu
itself nor one of its descendants. -/
def Guarded (heap : Addr → menu) : List (Addr × Addr) → Prop
  | [] => True
  | c :: rest =>
    (∀ n : Nat, ancestor heap n c.2 ≠ some c.1) ∧ Guarded (setParentAt heap c.1 c.2) rest

/-- Freshly constructed menus at every address. -/
def fresh : Addr → menu := fun a => menu.ctor a

/-! ### Defaults of the virtual hooks in `menu` -/

/-- Default `menu::onBreadCrumb`: returns false. -/
def menu.onBreadCrumb {σ : Type} (_this : Addr) (s : σ) : Bool × σ := (false, s)

/-- Default `menu::onBeforeBreadCrumb`: empty body. -/
def menu.onBeforeBreadCrumb {σ : Type} (_this : Addr) (s : σ) : σ := s

/-- Default `menu::onAfterBreadCrumb`: empty body. -/
def menu.onAfterBreadCrumb {σ : Type} (_this : Addr) (s : σ) : σ := s

/-- Default `menu::onBreadCrumbSep`: empty body. -/
def menu.onBreadCrumbSep {σ : Type} (_this : Addr) (_str : String) (s : σ) : σ := s

/-- Default `menu::onStartMenu`: empty body. -/
def menu.onStartMenu {σ : Type} (_this : Addr) (s : σ) : σ := s

/-- Default `menu::onExitMenu`: empty body. -/
def menu.onExitMenu {σ : Type} (_this : Addr) (s : σ) : σ := s

/-! ### The console adapter: `include/wy/menu-console.h` -/

/-- Value of a signed integer converted to `size_t`. -/
def size_t (i : Int) : Nat := (i % (SIZE_MOD : Int)).toNat

/-- Number of characters that `ss << n` writes for an unsigned `n`: its decimal digits. -/
def decimalLength (n : Nat) : Nat := (Nat.repr n).length

/-- What is written to `std::cout`, one value for each `<<`. -/
inductive Out where
  | text (s : String)
  | index (width : Nat) (n : Nat)
  | newline
  | endl
  deriving DecidableEq, Repr

/-- The four texts of the adapter: `enum class prompt`. -/
inductive console.prompt where
  | pause
  | choice
  | invalid
  | location
  deriving DecidableEq, Repr

/-- Data members that `console::menu` adds to those of `menu`. -/
structure console.menu where
  m_width : Nat
  m_pause : String
  m_choice : String
  m_invalidInput : String
  m_location : String
  deriving DecidableEq, Repr

/-- Constructor `console::menu::menu()`. -/
def console.menu.ctor : console.menu :=
  { m_width := 2
    m_choice := "choice: "
    m_pause := "press any key to continue..."
    m_invalidInput := "invalid input!"
    m_location := "Location: " }

/-- Member `console::menu::displayItem`: `setw(m_width) << index`, then ". ", the label, `endl`. -/
def console.menu.displayItem (d : console.menu) (index : Nat) (item : String)
    (cout : List Out) : List Out :=
  cout ++ [Out.index d.m_width index, Out.text ". ", Out.text item, Out.endl]

/-- Member `console::menu::userInput`.  `cin` lists the outcomes of the extractions
`std::cin >> input` still to come: the value read, or `none` when the extraction fails (as it does
at the end of the input); on failure `input = -1` runs. -/
def console.menu.userInput (d : console.menu) (cout : List Out) (cin : List (Option Nat)) :
    Nat × List Out × List (Option Nat) :=
  match cin with
  | [] => (size_t (-1), cout ++ [Out.text d.m_choice], [])
  | none :: rest => (size_t (-1), cout ++ [Out.text d.m_choice], rest)
  | some v :: rest => (v % SIZE_MOD, cout ++ [Out.text d.m_choice], rest)

/-- Member `console::menu::onBeforeBreadCrumb`: writes the literal "Location: ". -/
def console.menu.onBeforeBreadCrumb (_d : console.menu) (cout : List Out) : List Out :=
  cout ++ [Out.text "Location: "]

/-- Member `console::menu::onAfterBreadCrumb`. -/
def console.menu.onAfterBreadCrumb (_d : console.menu) (cout : List Out) : List Out :=
  cout ++ [Out.newline, Out.endl]

/-- Member `console::menu::onBreadCrumbSep`. -/
def console.menu.onBreadCrumbSep (_d : console.menu) (str : String) (cout : List Out) :
    List Out :=
  cout ++ [Out.text str]

/-- Member `console::menu::onUserInputPrompt`. -/
def console.menu.onUserInputPrompt (d : console.menu) (text : String) : console.menu :=
  { d with m_choice := text }

/-- Member `console::menu::onPause`: writes `m_pause`, then waits for a line, which is not one of
the extractions listed in `cin`. -/
def console.menu.onPause (d : console.menu) (cout : List Out) : List Out :=
  cout ++ [Out.text d.m_pause]

/-- Member `console::menu::onPausePrompt`. -/
def console.menu.onPausePrompt (d : console.menu) (text : String) : console.menu :=
  { d with m_pause := text }

/-- Member `console::menu::onBadInput`: writes `m_invalidInput` and `endl`, returns true. -/
def console.menu.onBadInput (d : console.menu) (_badIndex : Nat) (cout : List Out) :
    Bool × List Out :=
  (true, cout ++ [Out.text d.m_invalidInput, Out.endl])

/-- Member `console::menu::onBadInputPrompt`. -/
def console.menu.onBadInputPrompt (d : console.menu) (text : String) : console.menu :=
  { d with m_invalidInput := text }

/-- Member `console::menu::initMenu`, on the base part `b` and the console part `d` of one
object.  `onInitMenu` is the pure virtual hook that the application supplies. -/
def console.menu.initMenu (onInitMenu : wy.menu × console.menu → wy.menu × console.menu)
    (b : wy.menu) (d : console.menu) : wy.menu × console.menu :=
  let o := onInitMenu (b, d)
  let length := decimalLength ((o.1.menuSize + 1) % SIZE_MOD)
  (o.1.setBreadcrumbSeparator " >> ", { o.2 with m_width := max o.2.m_width length })

/-- Member `console::menu::setText`. -/
def console.menu.setText (d : console.menu) (place : console.prompt) (str : String) :
    console.menu :=
  match place with
  | console.prompt.pause => { d with m_pause := str }
  | console.prompt.choice => { d with m_choice := str }
  | console.prompt.invalid => { d with m_invalidInput := str }
  | console.prompt.location => { d with m_location := str }

/-- State that the hooks of the console adapter act on: the console part of the object at each
address, what was written to `std::cout`, and the extractions from `std::cin` still to come. -/
structure console.State where
  self : Addr → console.menu
  cout : List Out
  cin : List (Option Nat)

/-- The virtual functions of a `console::menu` object: the overrides of `menu-console.h`, and the
defaults of `menu` for `onBreadCrumb`, `onStartMenu` and `onExitMenu`, which it does not
override.  The callables of the items are given by `method` and `functor`. -/
def console.hooks
    (method : Nat → Addr → World console.State → retval × World console.State)
    (functor : Nat → World console.State → retval × World console.State) :
    Hooks console.State where
  onBreadCrumb := wy.menu.onBreadCrumb
  onBeforeBreadCrumb := fun a s => { s with cout := (s.self a).onBeforeBreadCrumb s.cout }
  onAfterBreadCrumb := fun a s => { s with cout := (s.self a).onAfterBreadCrumb s.cout }
  onBreadCrumbSep := fun a str s => { s with cout := (s.self a).onBreadCrumbSep str s.cout }
  displayItem := fun a index item s =>
    { s with cout := (s.self a).displayItem index item s.cout }
  userInput := fun a s =>
    ((((s.self a).userInput s.cout s.cin).1),
      { s with
        cout := ((s.self a).userInput s.cout s.cin).2.1
        cin := ((s.self a).userInput s.cout s.cin).2.2 })
  onPause := fun a s => { s with cout := (s.self a).onPause s.cout }
  onBadInput := fun a badIndex s =>
    (((s.self a).onBadInput badIndex s.cout).1,
      { s with cout := ((s.self a).onBadInput badIndex s.cout).2 })
  onStartMenu := wy.menu.onStartMenu
  onExitMenu := wy.menu.onExitMenu
  method := method
  functor := functor

/-- Console hooks whose callables all return `return_` and leave the world alone. -/
def plainConsole : Hooks console.State :=
  console.hooks (fun _ _ w => (retval.return_, w)) (fun _ w => (retval.return_, w))

/-- A console world: `fooBar` at every address, freshly constructed console parts, nothing
written yet, and the extractions `cin` to come. -/
def consoleWorld (cin : List (Option Nat)) : World console.State :=
  ⟨fun _ => fooBar, ⟨fun _ => console.menu.ctor, [], cin⟩⟩

/-! ### Separators -/

/-- The heap after the call `setBreadcrumbSeparator(sep)` on the menu at `a`. -/
def setSeparatorAt (heap : Addr → menu) (a : Addr) (sep : String) : Addr → menu :=
  fun x => if x = a then (heap x).setBreadcrumbSeparator sep else heap x

/-- The operation `setBreadcrumbSeparator`. -/
def Op.isSeparator : Op → Bool
  | Op.setBreadcrumbSeparator _ => true
  | _ => false

/-- Calls of `onBreadCrumbSep`. -/
def isSeparatorCall : Event → Bool
  | Event.onBreadCrumbSep _ _ => true
  | _ => false

/-- Three nested menus: the root at 0 with separator "R", A at 1 with parent 0 and a separator
that was never set, B at any other address with parent 1 and separator " / ". -/
def crumbs : Addr → menu
  | 0 => menu.build 0 [Op.setBreadcrumbSeparator "R"]
  | 1 => menu.build 1 [Op.setParent 0]
  | _ => menu.build 2 [Op.setParent 1, Op.setBreadcrumbSeparator " / "]

/-- Console state with fresh console parts, nothing written, and the extractions `cin` to come. -/
def freshConsole (cin : List (Option Nat)) : console.State :=
  ⟨fun _ => console.menu.ctor, [], cin⟩

/-- What one frame of `fooBar` writes on a fresh console: the breadcrumb line, the three items
and the choice text. -/
def fooBarScreen : List Out :=
  [Out.text "Location: ", Out.newline, Out.endl,
    Out.index 2 1, Out.text ". ", Out.text "Foo", Out.endl,
    Out.index 2 2, Out.text ". ", Out.text "Bar", Out.endl,
    Out.index 2 0, Out.text ". ", Out.text "Exit", Out.endl,
    Out.text "choice: "]

/-! ### The frame in the words of the specification -/

/-- Calls of `displayItem` that the specification asks of one frame, for the labels `l0` (the
exit item) and `ls` (the items 1, 2, ...): the items from 1 on in ascending order of index, then
item 0. -/
def itemCalls (this : Addr) (l0 : String) (ls : List String) : List Event :=
  (List.enumFrom 1 ls).map (fun p => Event.displayItem this p.1 p.2) ++
    [Event.displayItem this 0 l0]

/-- Presentation state after the `displayItem` hook has run on the items in the order of
`itemCalls`, starting from the state `s`. -/
def itemState {σ : Type} (h : Hooks σ) (this : Addr) (l0 : String) (ls : List String)
    (s : σ) : σ :=
  h.displayItem this 0 l0
    ((List.enumFrom 1 ls).foldl (fun s1 p => h.displayItem this p.1 p.2 s1) s)

/-- Calls of one breadcrumb render by `this` along `chain` (read root first, ending in `this`):
the before hook, the trail, the after hook. -/
def crumbCalls {σ : Type} (h : Hooks σ) (heap : Addr → menu) (chain : List Addr)
    (this : Addr) (s : σ) : List Event :=
  [Event.onBeforeBreadCrumb this] ++
    (trail h heap chain false (h.onBeforeBreadCrumb this s)).2.2 ++
    [Event.onAfterBreadCrumb this]

/-- Presentation state after the breadcrumb render whose calls are `crumbCalls`. -/
def crumbState {σ : Type} (h : Hooks σ) (heap : Addr → menu) (chain : List Addr)
    (this : Addr) (s : σ) : σ :=
  h.onAfterBreadCrumb this (trail h heap chain false (h.onBeforeBreadCrumb this s)).2.1

/-- The menu `[Exit, x, ..., x]` at address 0 with 99 pushed callables, 100 items in all. -/
def hundred : menu := menu.build 0 (List.replicate 99 (Op.pushFunctor "x" 1))

end wy

namespace wy

/-! ### The frame: breadcrumb and items -/

theorem breadcrumb_isCrumb {σ : Type} (h : Hooks σ) (heap : Addr → menu) :
    ∀ (fuel : Nat) (this : Addr) (s : σ) (b : Bool) (s1 : σ) (t : List Event),
      breadcrumb h heap fuel this s = Except.ok (b, s1, t) → ∀ e ∈ t, isCrumb e = true := by
  intro fuel
  induction fuel with
  | zero => intro this s b s1 t hb; simp [breadcrumb] at hb
  | succ fuel ih =>
    intro this s b s1 t hb
    rw [breadcrumb] at hb
    cases hp : (heap this).m_parent with
    | none =>
      simp only [hp] at hb
      injection hb with hb
      simp only [Prod.mk.injEq] at hb
      obtain ⟨-, -, rfl⟩ := hb
      intro e he
      simp at he
      subst he
      rfl
    | some parent =>
      simp only [hp] at hb
      cases hr : breadcrumb h heap fuel parent s with
      | error e => simp [hr] at hb
      | ok r =>
        obtain ⟨b0, s0, t0⟩ := r
        have h0 := ih parent s b0 s0 t0 hr
        simp only [hr] at hb
        cases b0 with
        | true =>
          simp only [if_true] at hb
          injection hb with hb
          simp only [Prod.mk.injEq] at hb
          obtain ⟨-, -, rfl⟩ := hb
          intro e he
          simp only [List.mem_append, List.mem_singleton] at he
          rcases he with (he | he) | he
          · exact h0 e he
          · subst he; rfl
          · subst he; rfl
        | false =>
          simp only [Bool.false_eq_true, if_false] at hb
          injection hb with hb
          simp only [Prod.mk.injEq] at hb
          obtain ⟨-, -, rfl⟩ := hb
          intro e he
          simp only [List.mem_append, List.mem_singleton] at he
          rcases he with he | he
          · exact h0 e he
          · subst he; rfl

theorem _breadcrumb_isCrumb {σ : Type} (h : Hooks σ) (heap : Addr → menu) (fuel : Nat)
    (this : Addr) (s s1 : σ) (t : List Event)
    (hb : _breadcrumb h heap fuel this s = Except.ok (s1, t)) : ∀ e ∈ t, isCrumb e = true := by
  unfold _breadcrumb at hb
  cases hr : breadcrumb h heap fuel this (h.onBeforeBreadCrumb this s) with
  | error e => simp [hr] at hb
  | ok r =>
    obtain ⟨b0, s0, t0⟩ := r
    have h0 := breadcrumb_isCrumb h heap fuel this _ b0 s0 t0 hr
    simp only [hr] at hb
    injection hb with hb
    simp only [Prod.mk.injEq] at hb
    obtain ⟨-, rfl⟩ := hb
    intro e he
    simp only [List.mem_append, List.mem_singleton] at he
    rcases he with (he | he) | he
    · subst he; rfl
    · exact h0 e he
    · subst he; rfl

theorem renderLoop_trace {σ : Type} (h : Hooks σ) (this : Addr) :
    ∀ (entries : List (String × basicItem)) (index : Nat) (s : σ), index ≠ 0 →
      (renderLoop h this entries index s).2 =
        (List.enumFrom index (entries.map Prod.fst)).map
          (fun p => Event.displayItem this p.1 p.2) := by
  intro entries
  induction entries with
  | nil => intro index s _; rfl
  | cons item rest ih =>
    intro index s hi
    simp only [renderLoop, hi, ne_eq, not_false_eq_true, if_true, List.map_cons,
      List.enumFrom_cons]
    rw [ih (index + 1) _ (Nat.succ_ne_zero index)]

theorem frame_ok {σ : Type} (h : Hooks σ) (depth : Nat) (this : Addr) (w w1 : World σ)
    (input : Nat) (tr : List Event) (hf : frame h depth this w = Except.ok (input, w1, tr)) :
    ∃ (s1 : σ) (tb : List Event) (first : String × basicItem),
      _breadcrumb h w.heap depth this (h.onStartMenu this w.user) = Except.ok (s1, tb) ∧
      (w.heap this).m_storage.index 0 = some first ∧
      w1.heap = w.heap ∧
      tr = [Event.onStartMenu this] ++ tb ++
          (renderLoop h this (w.heap this).m_storage.m_entries 0 s1).2 ++
          [Event.displayItem this 0 first.1, Event.userInput this input] := by
  unfold frame at hf
  cases hb : _breadcrumb h w.heap depth this (h.onStartMenu this w.user) with
  | error e => simp [hb] at hf
  | ok r =>
    obtain ⟨s1, tb⟩ := r
    simp only [hb] at hf
    cases hi : (w.heap this).m_storage.index 0 with
    | none => simp [hi] at hf
    | some first =>
      simp only [hi] at hf
      injection hf with hf
      simp only [Prod.mk.injEq] at hf
      obtain ⟨rfl, rfl, rfl⟩ := hf
      exact ⟨s1, tb, first, rfl, rfl, rfl, rfl⟩

theorem frame_total {σ : Type} (h : Hooks σ) (depth : Nat) (this : Addr) (w : World σ)
    (s1 : σ) (tb : List Event) (first : String × basicItem)
    (hb : _breadcrumb h w.heap depth this (h.onStartMenu this w.user) = Except.ok (s1, tb))
    (hi : (w.heap this).m_storage.index 0 = some first) :
    ∃ (input : Nat) (w1 : World σ) (tr : List Event),
      frame h depth this w = Except.ok (input, w1, tr) := by
  unfold frame
  simp only [hb, hi]
  exact ⟨_, _, _, rfl⟩

theorem dispatch_bad {σ : Type} (h : Hooks σ) (this : Addr) (init input : Nat) (w : World σ)
    (hv : (w.heap this).m_storage.size ≤ input) :
    dispatch h this init input w =
      if (h.onBadInput this input w.user).1 = false then
        Except.ok (none, ⟨w.heap, h.onExitMenu this (h.onBadInput this input w.user).2⟩,
          [Event.onBadInput this input false, Event.onExitMenu this])
      else
        Except.ok (some init, ⟨w.heap, h.onPause this (h.onBadInput this input w.user).2⟩,
          [Event.onBadInput this input true, Event.onPause this]) := by
  unfold dispatch
  rw [if_neg (Nat.not_lt.mpr hv)]

theorem index_lt {s : storage} {idx : Nat} (hv : idx < s.size) :
    ∃ tuple, s.index idx = some tuple := by
  unfold storage.index
  unfold storage.size at hv
  exact ⟨s.m_entries.get ⟨idx, hv⟩, List.get?_eq_get hv⟩

theorem index_some {s : storage} {idx : Nat} {tuple : String × basicItem}
    (hi : s.index idx = some tuple) : idx < s.size := by
  unfold storage.index at hi
  unfold storage.size
  by_contra hc
  rw [List.get?_eq_none.mpr (Nat.le_of_not_lt hc)] at hi
  cases hi

theorem dispatch_in {σ : Type} (h : Hooks σ) (this : Addr) (init input : Nat) (w : World σ)
    (tuple : String × basicItem) (hi : (w.heap this).m_storage.index input = some tuple) :
    dispatch h this init input w =
      match tuple.2.invoke h w with
      | (retval.quit_, w1) =>
        Except.ok (some 0, ⟨w1.heap, h.onExitMenu this w1.user⟩,
          [Event.invoke tuple.2 retval.quit_, Event.onExitMenu this])
      | (retval.pause_, w1) =>
        Except.ok (some input, ⟨w1.heap, h.onPause this w1.user⟩,
          [Event.invoke tuple.2 retval.pause_, Event.onPause this])
      | (retval.return_, w1) =>
        Except.ok (some input, w1, [Event.invoke tuple.2 retval.return_]) := by
  unfold dispatch
  rw [if_pos (index_some hi)]
  simp only [hi]

theorem dispatch_no_displayItem {σ : Type} (h : Hooks σ) (this : Addr) (init input : Nat)
    (w w1 : World σ) (ctl : Option Nat) (t : List Event)
    (hd : dispatch h this init input w = Except.ok (ctl, w1, t)) :
    t.filter isDisplayItem = [] := by
  by_cases hv : input < (w.heap this).m_storage.size
  · obtain ⟨tuple, hi⟩ := index_lt hv
    rw [dispatch_in h this init input w tuple hi] at hd
    split at hd <;>
    · injection hd with hd
      simp only [Prod.mk.injEq] at hd
      obtain ⟨-, -, rfl⟩ := hd
      rfl
  · rw [dispatch_bad h this init input w (Nat.le_of_not_lt hv)] at hd
    split at hd <;>
    · injection hd with hd
      simp only [Prod.mk.injEq] at hd
      obtain ⟨-, -, rfl⟩ := hd
      rfl

theorem iteration_ok {σ : Type} (h : Hooks σ) (depth : Nat) (this : Addr) (init : Nat)
    (w w2 : World σ) (ctl : Option Nat) (tr : List Event)
    (hit : iteration h depth this init w = Except.ok (ctl, w2, tr)) :
    ∃ (input : Nat) (w1 : World σ) (t1 t2 : List Event),
      frame h depth this w = Except.ok (input, w1, t1) ∧
      dispatch h this init input w1 = Except.ok (ctl, w2, t2) ∧ tr = t1 ++ t2 := by
  unfold iteration at hit
  cases hf : frame h depth this w with
  | error e => simp [hf] at hit
  | ok r =>
    obtain ⟨input, w1, t1⟩ := r
    simp only [hf] at hit
    cases hd : dispatch h this init input w1 with
    | error e => simp [hd] at hit
    | ok r2 =>
      obtain ⟨ctl2, w3, t2⟩ := r2
      simp only [hd] at hit
      injection hit with hit
      simp only [Prod.mk.injEq] at hit
      obtain ⟨rfl, rfl, rfl⟩ := hit
      exact ⟨input, w1, t1, t2, rfl, hd, rfl⟩

theorem filter_isDisplayItem_of_isCrumb (t : List Event) (ht : ∀ e ∈ t, isCrumb e = true) :
    t.filter isDisplayItem = [] := by
  rw [List.filter_eq_nil_iff]
  intro e he
  have hc := ht e he
  cases e <;> simp_all [isCrumb, isDisplayItem]

theorem filter_isDisplayItem_map (this : Addr) (l : List (Nat × String)) :
    (l.map (fun p => Event.displayItem this p.1 p.2)).filter isDisplayItem =
      l.map (fun p => Event.displayItem this p.1 p.2) := by
  rw [List.filter_eq_self]
  intro e he
  rw [List.mem_map] at he
  obtain ⟨p, -, rfl⟩ := he
  rfl

theorem renderLoop_isDisplayItem {σ : Type} (h : Hooks σ) (this : Addr) :
    ∀ (entries : List (String × basicItem)) (index : Nat) (s : σ),
      ∀ e ∈ (renderLoop h this entries index s).2, isDisplayItem e = true := by
  intro entries
  induction entries with
  | nil => intro index s e he; simp [renderLoop] at he
  | cons item rest ih =>
    intro index s e he
    rw [renderLoop] at he
    by_cases hi : index ≠ 0
    · rw [if_pos hi] at he
      simp only [List.mem_cons] at he
      rcases he with he | he
      · subst he; rfl
      · exact ih _ _ e he
    · rw [if_neg hi] at he
      exact ih _ _ e he

/-- Calls a frame can make: `onStartMenu`, the breadcrumb hooks, `displayItem`, `userInput`. -/
theorem frame_events {σ : Type} (h : Hooks σ) (depth : Nat) (this : Addr) (w w1 : World σ)
    (input : Nat) (tr : List Event) (hf : frame h depth this w = Except.ok (input, w1, tr)) :
    ∀ e ∈ tr, e = Event.onStartMenu this ∨ isCrumb e = true ∨ isDisplayItem e = true ∨
      e = Event.userInput this input := by
  obtain ⟨s1, tb, first, hb, -, -, rfl⟩ := frame_ok h depth this w w1 input tr hf
  intro e he
  simp only [List.mem_append, List.mem_singleton, List.mem_cons, List.not_mem_nil,
    or_false] at he
  rcases he with ((he | he) | he) | he | he
  · exact Or.inl he
  · exact Or.inr (Or.inl (_breadcrumb_isCrumb h w.heap depth this _ s1 tb hb e he))
  · exact Or.inr (Or.inr (Or.inl (renderLoop_isDisplayItem h this _ _ _ e he)))
  · subst he; exact Or.inr (Or.inr (Or.inl rfl))
  · exact Or.inr (Or.inr (Or.inr he))

theorem frame_no_exit {σ : Type} (h : Hooks σ) (depth : Nat) (this : Addr) (w w1 : World σ)
    (input : Nat) (tr : List Event) (hf : frame h depth this w = Except.ok (input, w1, tr)) :
    Event.onExitMenu this ∉ tr := by
  intro hm
  rcases frame_events h depth this w w1 input tr hf _ hm with he | he | he | he <;>
    simp [isCrumb, isDisplayItem] at he

theorem frame_no_invoke {σ : Type} (h : Hooks σ) (depth : Nat) (this : Addr) (w w1 : World σ)
    (input : Nat) (tr : List Event) (hf : frame h depth this w = Except.ok (input, w1, tr)) :
    tr.filter isInvoke = [] := by
  rw [List.filter_eq_nil_iff]
  intro e hm
  rcases frame_events h depth this w w1 input tr hf _ hm with he | he | he | he
  · subst he; simp [isInvoke]
  · cases e <;> simp_all [isCrumb, isInvoke]
  · cases e <;> simp_all [isDisplayItem, isInvoke]
  · subst he; simp [isInvoke]

theorem frame_heap {σ : Type} (h : Hooks σ) (depth : Nat) (this : Addr) (w w1 : World σ)
    (input : Nat) (tr : List Event) (hf : frame h depth this w = Except.ok (input, w1, tr)) :
    w1.heap = w.heap := by
  obtain ⟨_, _, _, -, -, hh, -⟩ := frame_ok h depth this w w1 input tr hf
  exact hh

/-! ### The loop -/

theorem displayLoop_succ {σ : Type} (h : Hooks σ) (depth : Nat) (this : Addr) (init fuel : Nat)
    (w w0 w1 : World σ) (input : Nat) (ctl : Option Nat) (t0 t1 : List Event)
    (hf : frame h depth this w = Except.ok (input, w0, t0))
    (hd : dispatch h this init input w0 = Except.ok (ctl, w1, t1)) :
    displayLoop h depth this init (fuel + 1) w =
      if again ctl then after (t0 ++ t1) (displayLoop h depth this init fuel w1)
      else Except.ok (w1, t0 ++ t1) := by
  rw [displayLoop, iteration]
  simp only [hf, hd]

theorem hasExit_index {this : Addr} {m : menu} (hm : hasExit this m) :
    ∃ label, m.m_storage.index 0 = some (label, basicItem.methodItem Method.menuExit this) := by
  obtain ⟨label, rest, he⟩ := hm
  exact ⟨label, by simp [storage.index, he]⟩

theorem invoke_menuExit {σ : Type} (h : Hooks σ) (handler : Addr) (w : World σ) :
    (basicItem.methodItem Method.menuExit handler).invoke h w = (retval.quit_, w) := rfl

theorem init_ne_zero (n0 : Nat) (hn0 : n0 + 1 < SIZE_MOD) : (n0 + 1) % SIZE_MOD ≠ 0 := by
  rw [Nat.mod_eq_of_lt hn0]
  exact Nat.succ_ne_zero n0

/-- What a dispatch does, under the exit item at index 0 and a nonzero `init`: it always returns,
and either the loop goes on without a call of `onExitMenu`, or the loop stops and `onExitMenu`
is the last call and the only one of its kind; the first case is the one where `stops` fails. -/
theorem dispatch_cases {σ : Type} (h : Hooks σ) (this : Addr) (init input : Nat) (w : World σ)
    (hinit : init ≠ 0) (hexit : hasExit this (w.heap this)) :
    ∃ (ctl : Option Nat) (w1 : World σ) (t : List Event),
      dispatch h this init input w = Except.ok (ctl, w1, t) ∧
      ((again ctl = true ∧ ¬ stops h this input w ∧ Event.onExitMenu this ∉ t ∧
          (w1.heap = w.heap ∨ ∃ tuple, (w.heap this).m_storage.index input = some tuple ∧
            w1.heap = (tuple.2.invoke h w).2.heap)) ∨
        (again ctl = false ∧ stops h this input w ∧
          ∃ pre, t = pre ++ [Event.onExitMenu this] ∧ Event.onExitMenu this ∉ pre)) := by
  by_cases hv : input < (w.heap this).m_storage.size
  · obtain ⟨tuple, hi⟩ := index_lt hv
    rw [dispatch_in h this init input w tuple hi]
    cases hr : tuple.2.invoke h w with
    | mk r w1 =>
      cases r with
      | quit_ =>
        refine ⟨_, _, _, rfl, Or.inr ⟨by simp [again], Or.inl ⟨hv, tuple, hi, by rw [hr]⟩,
          [Event.invoke tuple.2 retval.quit_], rfl, by simp⟩⟩
      | return_ =>
        have hne : input ≠ 0 := by
          rintro rfl
          obtain ⟨label, h0⟩ := hasExit_index hexit
          rw [h0] at hi
          injection hi with hi
          subst hi
          rw [invoke_menuExit] at hr
          cases hr
        refine ⟨_, _, _, rfl, Or.inl ⟨by simp [again, hne], ?_, by simp, Or.inr ⟨tuple, hi, by rw [hr]⟩⟩⟩
        rintro (⟨-, t2, hi2, hq⟩ | ⟨hle, -⟩)
        · rw [hi] at hi2
          injection hi2 with hi2
          subst hi2
          rw [hr] at hq
          cases hq
        · exact absurd hv (Nat.not_lt.mpr hle)
      | pause_ =>
        have hne : input ≠ 0 := by
          rintro rfl
          obtain ⟨label, h0⟩ := hasExit_index hexit
          rw [h0] at hi
          injection hi with hi
          subst hi
          rw [invoke_menuExit] at hr
          cases hr
        refine ⟨_, _, _, rfl, Or.inl ⟨by simp [again, hne], ?_, by simp, Or.inr ⟨tuple, hi, by rw [hr]⟩⟩⟩
        rintro (⟨-, t2, hi2, hq⟩ | ⟨hle, -⟩)
        · rw [hi] at hi2
          injection hi2 with hi2
          subst hi2
          rw [hr] at hq
          cases hq
        · exact absurd hv (Nat.not_lt.mpr hle)
  · have hle := Nat.le_of_not_lt hv
    rw [dispatch_bad h this init input w hle]
    by_cases hb : (h.onBadInput this input w.user).1 = false
    · rw [if_pos hb]
      exact ⟨_, _, _, rfl, Or.inr ⟨rfl, Or.inr ⟨hle, hb⟩,
        [Event.onBadInput this input false], rfl, by simp⟩⟩
    · rw [if_neg hb]
      refine ⟨_, _, _, rfl, Or.inl ⟨by simp [again, hinit], ?_, by simp, Or.inl rfl⟩⟩
      rintro (⟨hlt, -⟩ | ⟨-, hb2⟩)
      · exact hv hlt
      · exact hb hb2

theorem after_ok {σ : Type} (t : List Event) (r : Except Fault (World σ × List Event))
    (w1 : World σ) (tr : List Event) (ha : after t r = Except.ok (w1, tr)) :
    ∃ t2, r = Except.ok (w1, t2) ∧ tr = t ++ t2 := by
  cases r with
  | error e => simp [after] at ha
  | ok p =>
    obtain ⟨w2, t2⟩ := p
    simp only [after] at ha
    injection ha with ha
    simp only [Prod.mk.injEq] at ha
    obtain ⟨rfl, rfl⟩ := ha
    exact ⟨t2, rfl, rfl⟩

theorem displayLoop_frame {σ : Type} (h : Hooks σ) (depth : Nat) (this : Addr) (init fuel : Nat)
    (w w1 : World σ) (tr : List Event)
    (hrun : displayLoop h depth this init (fuel + 1) w = Except.ok (w1, tr)) :
    ∃ (input : Nat) (w0 : World σ) (t0 : List Event),
      frame h depth this w = Except.ok (input, w0, t0) := by
  rw [displayLoop, iteration] at hrun
  cases hf : frame h depth this w with
  | error e => simp [hf] at hrun
  | ok r => exact ⟨r.1, r.2.1, r.2.2, rfl⟩

/-- A run of the loop that returns ends with the one call of `onExitMenu` it makes. -/
theorem displayLoop_exit_last {σ : Type} (h : Hooks σ) (depth : Nat) (this : Addr) (init : Nat)
    (hinit : init ≠ 0)
    (hpres : ∀ (w : World σ) (idx : Nat) (tuple : String × basicItem),
      hasExit this (w.heap this) → (w.heap this).m_storage.index idx = some tuple →
      hasExit this ((tuple.2.invoke h w).2.heap this)) :
    ∀ (fuel : Nat) (w w1 : World σ) (tr : List Event), hasExit this (w.heap this) →
      displayLoop h depth this init fuel w = Except.ok (w1, tr) →
      ∃ pre, tr = pre ++ [Event.onExitMenu this] ∧ Event.onExitMenu this ∉ pre := by
  intro fuel
  induction fuel with
  | zero => intro w w1 tr _ hrun; simp [displayLoop] at hrun
  | succ fuel ih =>
    intro w w1 tr hexit hrun
    obtain ⟨input, w0, t0, hf⟩ := displayLoop_frame h depth this init fuel w w1 tr hrun
    have hh := frame_heap h depth this w w0 input t0 hf
    have hexit0 : hasExit this (w0.heap this) := by rw [hh]; exact hexit
    have hno := frame_no_exit h depth this w w0 input t0 hf
    obtain ⟨ctl, w2, t, hd, hc⟩ := dispatch_cases h this init input w0 hinit hexit0
    rw [displayLoop_succ h depth this init fuel w w0 w2 input ctl t0 t hf hd] at hrun
    rcases hc with ⟨hag, -, hnt, hheap⟩ | ⟨hag, -, pre, rfl, hpre⟩
    · rw [if_pos hag] at hrun
      obtain ⟨t2, hrest, rfl⟩ := after_ok _ _ _ _ hrun
      have hexit2 : hasExit this (w2.heap this) := by
        rcases hheap with hheap | ⟨tuple, hi, hheap⟩
        · rw [hheap]; exact hexit0
        · rw [hheap]; exact hpres w0 input tuple hexit0 hi
      obtain ⟨pre2, rfl, hpre2⟩ := ih w2 w1 t2 hexit2 hrest
      refine ⟨t0 ++ t ++ pre2, by simp, ?_⟩
      simp only [List.mem_append, not_or]
      exact ⟨⟨hno, hnt⟩, hpre2⟩
    · rw [if_neg (by simp [hag])] at hrun
      injection hrun with hrun
      simp only [Prod.mk.injEq] at hrun
      obtain ⟨-, rfl⟩ := hrun
      refine ⟨t0 ++ pre, by simp, ?_⟩
      simp only [List.mem_append, not_or]
      exact ⟨hno, hpre⟩

/-! ### The scripted hooks -/

theorem scripted_invoke (crumb : Addr → Bool) (bad : Nat → Bool) (act : Nat → retval)
    (item : basicItem) (w : World (List Nat)) :
    (item.invoke (scripted crumb bad act) w).2 = w := by
  cases item with
  | methodItem m handler => cases m <;> rfl
  | functionItem f => rfl

theorem scripted_keeps_exit (crumb : Addr → Bool) (bad : Nat → Bool) (act : Nat → retval)
    (this : Addr) (w : World (List Nat)) (idx : Nat) (tuple : String × basicItem)
    (hw : hasExit this (w.heap this)) (_ : (w.heap this).m_storage.index idx = some tuple) :
    hasExit this ((tuple.2.invoke (scripted crumb bad act) w).2.heap this) := by
  rw [scripted_invoke]
  exact hw

theorem fooBar_hasExit : hasExit 0 fooBar := ⟨"Exit", _, rfl⟩

theorem dispatch_heap {σ : Type} (h : Hooks σ) (this : Addr) (init input : Nat)
    (w w1 : World σ) (ctl : Option Nat) (t : List Event)
    (hd : dispatch h this init input w = Except.ok (ctl, w1, t)) :
    w1.heap = w.heap ∨ ∃ tuple, (w.heap this).m_storage.index input = some tuple ∧
      w1.heap = (tuple.2.invoke h w).2.heap := by
  by_cases hv : input < (w.heap this).m_storage.size
  · obtain ⟨tuple, hi⟩ := index_lt hv
    rw [dispatch_in h this init input w tuple hi] at hd
    refine Or.inr ⟨tuple, hi, ?_⟩
    cases hr : tuple.2.invoke h w with
    | mk r w2 =>
      rw [hr] at hd
      cases r <;>
      · simp only at hd
        injection hd with hd
        simp only [Prod.mk.injEq] at hd
        obtain ⟨-, rfl, -⟩ := hd
        rfl
  · rw [dispatch_bad h this init input w (Nat.le_of_not_lt hv)] at hd
    refine Or.inl ?_
    split at hd <;>
    · injection hd with hd
      simp only [Prod.mk.injEq] at hd
      obtain ⟨-, rfl, -⟩ := hd
      rfl

/-- The loop writes no menu object itself: when no stored item changes the object at `a`, a
run that returns leaves it as it was. -/
theorem displayLoop_heap {σ : Type} (h : Hooks σ) (depth : Nat) (this : Addr) (init : Nat)
    (a : Addr)
    (hkeep : ∀ (v : World σ) (idx : Nat) (tp : String × basicItem),
      (v.heap this).m_storage.index idx = some tp → (tp.2.invoke h v).2.heap a = v.heap a) :
    ∀ (fuel : Nat) (w w1 : World σ) (tr : List Event),
      displayLoop h depth this init fuel w = Except.ok (w1, tr) → w1.heap a = w.heap a := by
  intro fuel
  induction fuel with
  | zero => intro w w1 tr hrun; simp [displayLoop] at hrun
  | succ fuel ih =>
    intro w w1 tr hrun
    obtain ⟨input, w0, t0, hf⟩ := displayLoop_frame h depth this init fuel w w1 tr hrun
    have hh := frame_heap h depth this w w0 input t0 hf
    cases hd : dispatch h this init input w0 with
    | error e =>
      rw [displayLoop, iteration] at hrun
      simp [hf, hd] at hrun
    | ok r =>
      obtain ⟨ctl, w2, t⟩ := r
      rw [displayLoop_succ h depth this init fuel w w0 w2 input ctl t0 t hf hd] at hrun
      have h2 : w2.heap a = w.heap a := by
        rcases dispatch_heap h this init input w0 w2 ctl t hd with hheap | ⟨tuple, hi, hheap⟩
        · rw [hheap, hh]
        · rw [hheap, hkeep w0 input tuple hi, hh]
      by_cases hag : again ctl = true
      · rw [if_pos hag] at hrun
        obtain ⟨t2, hrest, -⟩ := after_ok _ _ _ _ hrun
        rw [ih w2 w1 t2 hrest, h2]
      · rw [if_neg hag] at hrun
        injection hrun with hrun
        simp only [Prod.mk.injEq] at hrun
        obtain ⟨rfl, -⟩ := hrun
        exact h2

/-! ### The breadcrumb walk along a parent chain -/

theorem isChain_snoc (heap : Addr → menu) :
    ∀ (l : List Addr) (above : Option Addr) (p m : Addr),
      isChain heap above (l ++ [p] ++ [m]) = true →
      isChain heap above (l ++ [p]) = true ∧ (heap m).m_parent = some p := by
  intro l
  induction l with
  | nil =>
    intro above p m hc
    simp only [List.nil_append, List.singleton_append, isChain, Bool.and_true,
      Bool.and_eq_true, decide_eq_true_eq] at hc ⊢
    exact ⟨hc.1, hc.2⟩
  | cons a l ih =>
    intro above p m hc
    simp only [List.cons_append, isChain, Bool.and_eq_true, decide_eq_true_eq] at hc ⊢
    obtain ⟨h1, h2⟩ := ih (some a) p m hc.2
    exact ⟨⟨hc.1, h1⟩, h2⟩

theorem trail_snoc {σ : Type} (h : Hooks σ) (heap : Addr → menu) :
    ∀ (l : List Addr) (m : Addr) (shown : Bool) (s : σ),
      trail h heap (l ++ [m]) shown s =
        ((h.onBreadCrumb m
            (if (trail h heap l shown s).1 then
              h.onBreadCrumbSep m (heap m).m_sep (trail h heap l shown s).2.1
            else (trail h heap l shown s).2.1)).1,
          (h.onBreadCrumb m
            (if (trail h heap l shown s).1 then
              h.onBreadCrumbSep m (heap m).m_sep (trail h heap l shown s).2.1
            else (trail h heap l shown s).2.1)).2,
          (trail h heap l shown s).2.2 ++
            (if (trail h heap l shown s).1 then [Event.onBreadCrumbSep m (heap m).m_sep]
              else []) ++
            [Event.onBreadCrumb m (h.onBreadCrumb m
              (if (trail h heap l shown s).1 then
                h.onBreadCrumbSep m (heap m).m_sep (trail h heap l shown s).2.1
              else (trail h heap l shown s).2.1)).1]) := by
  intro l
  induction l with
  | nil => intro m shown s; simp [trail]
  | cons a l ih =>
    intro m shown s
    rw [List.cons_append, trail, ih]
    simp [trail]

theorem breadcrumb_chain {σ : Type} (h : Hooks σ) (heap : Addr → menu) :
    ∀ (anc : List Addr) (m : Addr), isChain heap none (anc ++ [m]) = true →
      ∀ (fuel : Nat) (s : σ), anc.length + 1 ≤ fuel →
        breadcrumb h heap fuel m s = Except.ok (trail h heap (anc ++ [m]) false s) := by
  intro anc
  induction anc using List.reverseRecOn with
  | nil =>
    intro m hc fuel s hfuel
    obtain ⟨f, rfl⟩ : ∃ f, fuel = f + 1 := ⟨fuel - 1, by simp at hfuel; omega⟩
    simp only [List.nil_append, isChain, Bool.and_true, decide_eq_true_eq] at hc
    rw [breadcrumb]
    simp [hc, trail]
  | append_singleton l p ih =>
    intro m hc fuel s hfuel
    obtain ⟨f, rfl⟩ : ∃ f, fuel = f + 1 := ⟨fuel - 1, by simp at hfuel; omega⟩
    obtain ⟨hc1, hp⟩ := isChain_snoc heap l none p m hc
    have hrec := ih p hc1 f s (by simp at hfuel ⊢; omega)
    rw [breadcrumb]
    simp only [hp, hrec]
    rw [trail_snoc h heap (l ++ [p]) m false s]
    cases hb : (trail h heap (l ++ [p]) false s).1 <;> simp [hb]

/-! ### The operations on the item storage -/

theorem clear_fst (s : storage) : s.clear.1 = s := by
  unfold storage.clear
  cases hs : s.m_entries with
  | nil =>
    simp only [List.isEmpty_nil, if_true]
    cases s
    simp only at hs
    rw [hs]
  | cons e rest => simp

theorem apply_entries (this : Addr) (m : menu) (label : String) (item : basicItem)
    (es : List (String × basicItem)) (op : Op)
    (hm : m.m_storage.m_entries = (label, item) :: es) :
    (op.apply this m).m_storage.m_entries = (exitText label [op], item) :: (es ++ op.pushed) := by
  cases op with
  | push menuText entry cv => simp [Op.apply, menu.push, storage.push, hm, exitText, Op.pushed]
  | pushFunctor menuText f =>
    simp [Op.apply, menu.pushFunctor, storage.push, hm, exitText, Op.pushed]
  | clearMenu => simp [Op.apply, menu.clearMenu, clear_fst, hm, exitText, Op.pushed]
  | setParent parent => simp [Op.apply, menu.setParent, hm, exitText, Op.pushed]
  | setBreadcrumbSeparator sep =>
    simp [Op.apply, menu.setBreadcrumbSeparator, hm, exitText, Op.pushed]
  | setExitMenuText exitStr =>
    simp [Op.apply, menu.setExitMenuText, storage.empty, hm, exitText, Op.pushed]

theorem foldl_entries (this : Addr) :
    ∀ (ops : List Op) (m : menu) (label : String) (item : basicItem)
      (es : List (String × basicItem)), m.m_storage.m_entries = (label, item) :: es →
      (ops.foldl (Op.apply this) m).m_storage.m_entries =
        (exitText label ops, item) :: (es ++ pushedBy ops) := by
  intro ops
  induction ops with
  | nil => intro m label item es hm; simp [hm, exitText, pushedBy]
  | cons op ops ih =>
    intro m label item es hm
    rw [List.foldl_cons, ih _ _ _ _ (apply_entries this m label item es op hm)]
    cases op <;> simp [exitText, pushedBy]

theorem ctor_entries (this : Addr) :
    (menu.ctor this).m_storage.m_entries =
      [("Exit", basicItem.methodItem Method.menuExit this)] := rfl

/-- Items of a constructed menu: the exit item, under the label set last, then what was pushed. -/
theorem build_entries (this : Addr) (ops : List Op) :
    (menu.build this ops).m_storage.m_entries =
      (exitText "Exit" ops, basicItem.methodItem Method.menuExit this) :: pushedBy ops := by
  unfold menu.build
  rw [foldl_entries this ops _ _ _ [] (ctor_entries this)]
  simp

theorem build_hasExit (this : Addr) (ops : List Op) : hasExit this (menu.build this ops) :=
  ⟨_, _, build_entries this ops⟩

theorem exitText_of_isPush :
    ∀ (ops : List Op) (text : String), (∀ op ∈ ops, op.isPush = true) →
      exitText text ops = text := by
  intro ops
  induction ops with
  | nil => intro text _; rfl
  | cons op ops ih =>
    intro text hp
    have h1 := hp op (List.mem_cons_self _ _)
    have h2 := ih text (fun o ho => hp o (List.mem_cons_of_mem _ ho))
    cases op <;> simp_all [exitText, Op.isPush]

theorem pushedBy_length :
    ∀ ops : List Op, (pushedBy ops).length = (ops.filter Op.isPush).length := by
  intro ops
  induction ops with
  | nil => rfl
  | cons op ops ih => cases op <;> simp [pushedBy, Op.pushed, Op.isPush, ih]

theorem breadcrumb_error {σ : Type} (h : Hooks σ) (heap : Addr → menu) :
    ∀ (fuel : Nat) (this : Addr) (s : σ) (e : Fault),
      breadcrumb h heap fuel this s = Except.error e → e = Fault.outOfFuel := by
  intro fuel
  induction fuel with
  | zero => intro this s e hb; simp [breadcrumb] at hb; exact hb.symm
  | succ fuel ih =>
    intro this s e hb
    rw [breadcrumb] at hb
    cases hp : (heap this).m_parent with
    | none => simp [hp] at hb
    | some parent =>
      simp only [hp] at hb
      cases hr : breadcrumb h heap fuel parent s with
      | error e2 =>
        simp only [hr] at hb
        injection hb with hb
        rw [← hb]
        exact ih parent s e2 hr
      | ok r =>
        obtain ⟨b, s1, t1⟩ := r
        simp only [hr] at hb
        cases b <;> simp at hb

theorem renderLoop_state {σ : Type} (h : Hooks σ) (this : Addr) :
    ∀ (entries : List (String × basicItem)) (index : Nat) (s : σ), index ≠ 0 →
      (renderLoop h this entries index s).1 =
        (List.enumFrom index (entries.map Prod.fst)).foldl
          (fun s1 p => h.displayItem this p.1 p.2 s1) s := by
  intro entries
  induction entries with
  | nil => intro index s _; rfl
  | cons item rest ih =>
    intro index s hi
    simp only [renderLoop, hi, ne_eq, not_false_eq_true, if_true, List.map_cons,
      List.enumFrom_cons, List.foldl_cons]
    rw [ih (index + 1) _ (Nat.succ_ne_zero index)]

theorem dispatch_total {σ : Type} (h : Hooks σ) (this : Addr) (init input : Nat)
    (w : World σ) :
    ∃ (ctl : Option Nat) (w1 : World σ) (t : List Event),
      dispatch h this init input w = Except.ok (ctl, w1, t) := by
  by_cases hv : input < (w.heap this).m_storage.size
  · obtain ⟨tuple, hi⟩ := index_lt hv
    rw [dispatch_in h this init input w tuple hi]
    split <;> exact ⟨_, _, _, rfl⟩
  · rw [dispatch_bad h this init input w (Nat.le_of_not_lt hv)]
    split <;> exact ⟨_, _, _, rfl⟩

/-- The breadcrumb render along a parent chain returns, with the calls and the state of the
specification. -/
theorem _breadcrumb_chain {σ : Type} (h : Hooks σ) (heap : Addr → menu) (anc : List Addr)
    (mk : Addr) (fuel : Nat) (s : σ)
    (hchain : isChain heap none (anc ++ [mk]) = true) (hfuel : anc.length + 1 ≤ fuel) :
    _breadcrumb h heap fuel mk s =
      Except.ok (crumbState h heap (anc ++ [mk]) mk s, crumbCalls h heap (anc ++ [mk]) mk s) := by
  unfold _breadcrumb crumbState crumbCalls
  rw [breadcrumb_chain h heap anc mk hchain fuel _ hfuel]

/-- Once the breadcrumb render has returned, the frame returns: it has run `displayItem` on the
items 1, 2, ... in ascending order and then on item 0, and `userInput` in the state so reached. -/
theorem frame_of_breadcrumb {σ : Type} (h : Hooks σ) (depth : Nat) (this : Addr) (w : World σ)
    (l0 : String) (ls : List String) (sB : σ) (tb : List Event)
    (hl : (w.heap this).m_storage.m_entries.map Prod.fst = l0 :: ls)
    (hb : _breadcrumb h w.heap depth this (h.onStartMenu this w.user) = Except.ok (sB, tb)) :
    frame h depth this w =
      Except.ok ((h.userInput this (itemState h this l0 ls sB)).1,
        ⟨w.heap, (h.userInput this (itemState h this l0 ls sB)).2⟩,
        [Event.onStartMenu this] ++ tb ++ itemCalls this l0 ls ++
          [Event.userInput this (h.userInput this (itemState h this l0 ls sB)).1]) := by
  cases hes : (w.heap this).m_storage.m_entries with
  | nil => rw [hes] at hl; cases hl
  | cons e0 rest =>
    rw [hes] at hl
    simp only [List.map_cons, List.cons.injEq] at hl
    obtain ⟨hl0, hls⟩ := hl
    have hi : (w.heap this).m_storage.index 0 = some e0 := by simp [storage.index, hes]
    have hr1 : (renderLoop h this (e0 :: rest) 0 sB).1 =
        (List.enumFrom 1 ls).foldl (fun s1 p => h.displayItem this p.1 p.2 s1) sB := by
      rw [renderLoop]
      simp only [ne_eq, not_true_eq_false, if_false]
      rw [renderLoop_state h this rest 1 sB (by decide), hls]
    have hr2 : (renderLoop h this (e0 :: rest) 0 sB).2 =
        (List.enumFrom 1 ls).map (fun p => Event.displayItem this p.1 p.2) := by
      rw [renderLoop]
      simp only [ne_eq, not_true_eq_false, if_false]
      rw [renderLoop_trace h this rest 1 sB (by decide), hls]
    unfold frame
    simp only [hb, hi, hes, hr1, hr2, hl0, itemState, itemCalls, List.append_assoc,
      List.singleton_append, List.cons_append, List.nil_append]

/-- In every pass that returns, the calls of `displayItem` are those of the specification. -/
theorem iteration_displayItems {σ : Type} (h : Hooks σ) (depth : Nat) (this : Addr)
    (init : Nat) (w w2 : World σ) (ctl : Option Nat) (tr : List Event) (l0 : String)
    (ls : List String)
    (hl : (w.heap this).m_storage.m_entries.map Prod.fst = l0 :: ls)
    (hit : iteration h depth this init w = Except.ok (ctl, w2, tr)) :
    tr.filter isDisplayItem = itemCalls this l0 ls := by
  obtain ⟨input, w1, t1, t2, hf, hd, rfl⟩ := iteration_ok h depth this init w w2 ctl tr hit
  obtain ⟨s1, tb, first, hb, -, -, -⟩ := frame_ok h depth this w w1 input t1 hf
  have hcr := filter_isDisplayItem_of_isCrumb tb
    (_breadcrumb_isCrumb h w.heap depth this _ s1 tb hb)
  have hdn := dispatch_no_displayItem h this init input w1 w2 ctl t2 hd
  rw [frame_of_breadcrumb h depth this w l0 ls s1 tb hl hb] at hf
  injection hf with hf
  simp only [Prod.mk.injEq] at hf
  obtain ⟨-, -, rfl⟩ := hf
  simp only [List.filter_append, hcr, hdn, itemCalls, filter_isDisplayItem_map]
  simp [List.filter, isDisplayItem]

/-- C1: on a menu with n >= 1 items, labels l0, l1, ..., whose parent chain ends in a root, every
pass of the loop of display is produced (given depth for the chain) and its frame runs displayItem
exactly n times: on (1, l1), (2, l2), ... in ascending order of index and then on (0, l0), each
call acting on the state left by the one before, with userInput after them; and in any pass
that returns, at whatever depth, the calls of displayItem are these. -/
theorem C1_display_order {σ : Type} (h : Hooks σ) (depth : Nat) (this : Addr) (init : Nat)
    (w : World σ) (l0 : String) (ls : List String) (anc : List Addr)
    (hl : (w.heap this).m_storage.m_entries.map Prod.fst = l0 :: ls)
    (hchain : isChain w.heap none (anc ++ [this]) = true)
    (hdepth : anc.length + 1 ≤ depth) :
    frame h depth this w =
        Except.ok
          ((h.userInput this (itemState h this l0 ls
              (crumbState h w.heap (anc ++ [this]) this (h.onStartMenu this w.user)))).1,
            ⟨w.heap, (h.userInput this (itemState h this l0 ls
              (crumbState h w.heap (anc ++ [this]) this (h.onStartMenu this w.user)))).2⟩,
            [Event.onStartMenu this] ++
              crumbCalls h w.heap (anc ++ [this]) this (h.onStartMenu this w.user) ++
              itemCalls this l0 ls ++
              [Event.userInput this (h.userInput this (itemState h this l0 ls
                (crumbState h w.heap (anc ++ [this]) this (h.onStartMenu this w.user)))).1]) ∧
      (itemCalls this l0 ls).length = (w.heap this).menuSize ∧
      (∃ (ctl : Option Nat) (w2 : World σ) (tr : List Event),
        iteration h depth this init w = Except.ok (ctl, w2, tr) ∧
        tr.filter isDisplayItem = itemCalls this l0 ls) ∧
      ∀ (depth2 : Nat) (ctl : Option Nat) (w2 : World σ) (tr : List Event),
        iteration h depth2 this init w = Except.ok (ctl, w2, tr) →
        tr.filter isDisplayItem = itemCalls this l0 ls := by
  have hb := _breadcrumb_chain h w.heap anc this depth (h.onStartMenu this w.user) hchain hdepth
  have hf := frame_of_breadcrumb h depth this w l0 ls _ _ hl hb
  refine ⟨hf, ?_, ?_, ?_⟩
  · have hlen : ((w.heap this).m_storage.m_entries.map Prod.fst).length =
        (w.heap this).menuSize := by simp [menu.menuSize, storage.size]
    rw [hl] at hlen
    rw [← hlen]
    simp [itemCalls]
  · obtain ⟨ctl, w2, t2, hd⟩ := dispatch_total h this init
      (h.userInput this (itemState h this l0 ls
        (crumbState h w.heap (anc ++ [this]) this (h.onStartMenu this w.user)))).1
      ⟨w.heap, (h.userInput this (itemState h this l0 ls
        (crumbState h w.heap (anc ++ [this]) this (h.onStartMenu this w.user)))).2⟩
    have hit : iteration h depth this init w = Except.ok (ctl, w2,
        ([Event.onStartMenu this] ++
          crumbCalls h w.heap (anc ++ [this]) this (h.onStartMenu this w.user) ++
          itemCalls this l0 ls ++
          [Event.userInput this (h.userInput this (itemState h this l0 ls
            (crumbState h w.heap (anc ++ [this]) this (h.onStartMenu this w.user)))).1]) ++
          t2) := by
      unfold iteration
      rw [hf]
      simp only [hd]
    exact ⟨ctl, w2, _, hit, iteration_displayItems h depth this init w w2 ctl _ l0 ls hl hit⟩
  · intro depth2 ctl w2 tr hit
    exact iteration_displayItems h depth2 this init w w2 ctl tr l0 ls hl hit

/-- The console adapter on [Exit, Foo, Bar], a root: the frame is produced, and the screen shows
that displayItem wrote 1. Foo, then 2. Bar, then 0. Exit, before the choice text. -/
theorem C1_display_order_witness :
    fooBar.m_storage.m_entries.map Prod.fst = "Exit" :: ["Foo", "Bar"] ∧
      isChain (consoleWorld [some 1]).heap none ([] ++ [0]) = true ∧
      ([] : List Addr).length + 1 ≤ 1 ∧
      frame plainConsole 1 0 (consoleWorld [some 1]) =
        Except.ok (1, ⟨fun _ => fooBar, ⟨fun _ => console.menu.ctor, fooBarScreen, []⟩⟩,
          [Event.onStartMenu 0, Event.onBeforeBreadCrumb 0, Event.onBreadCrumb 0 false,
            Event.onAfterBreadCrumb 0, Event.displayItem 0 1 "Foo", Event.displayItem 0 2 "Bar",
            Event.displayItem 0 0 "Exit", Event.userInput 0 1]) ∧
      (itemCalls 0 "Exit" ["Foo", "Bar"]).length = 3 :=
  ⟨rfl, by decide, by decide,
    (C1_display_order plainConsole 1 0 4 (consoleWorld [some 1]) "Exit" ["Foo", "Bar"] []
      rfl (by decide) (by decide)).1,
    (C1_display_order plainConsole 1 0 4 (consoleWorld [some 1]) "Exit" ["Foo", "Bar"] []
      rfl (by decide) (by decide)).2.1⟩

/-- C2: a call of display that returns on a constructed menu (exit item at index 0) calls
onExitMenu exactly once, as its very last call, so that no frame, input or action follows it;
and a pass in which the selection is 0 or the selected action returns quit is the last pass. -/
theorem C2_exit_exactly_once {σ : Type} (h : Hooks σ) (depth fuel : Nat) (this : Addr)
    (w w1 : World σ) (tr : List Event)
    (hsize : (w.heap this).menuSize + 1 < SIZE_MOD)
    (hexit : hasExit this (w.heap this))
    (hpres : ∀ (w : World σ) (idx : Nat) (tuple : String × basicItem),
      hasExit this (w.heap this) → (w.heap this).m_storage.index idx = some tuple →
      hasExit this ((tuple.2.invoke h w).2.heap this))
    (hrun : display h depth fuel this w = Except.ok (w1, tr)) :
    (∃ pre, tr = pre ++ [Event.onExitMenu this] ∧ Event.onExitMenu this ∉ pre) ∧
      tr.count (Event.onExitMenu this) = 1 ∧
      ∀ (init fuel0 input : Nat) (v v0 : World σ) (t0 : List Event) (tuple : String × basicItem),
        hasExit this (v.heap this) →
        frame h depth this v = Except.ok (input, v0, t0) →
        (v0.heap this).m_storage.index input = some tuple →
        (input = 0 ∨ (tuple.2.invoke h v0).1 = retval.quit_) →
        displayLoop h depth this init (fuel0 + 1) v =
          Except.ok (⟨(tuple.2.invoke h v0).2.heap,
              h.onExitMenu this (tuple.2.invoke h v0).2.user⟩,
            t0 ++ [Event.invoke tuple.2 retval.quit_, Event.onExitMenu this]) := by
  have hlast := displayLoop_exit_last h depth this _ (init_ne_zero _ hsize) hpres fuel w w1 tr
    hexit hrun
  refine ⟨hlast, ?_, ?_⟩
  · obtain ⟨pre, rfl, hpre⟩ := hlast
    rw [List.count_append, List.count_eq_zero_of_not_mem hpre]
    simp
  · intro init fuel0 input v v0 t0 tuple hv hf hi hsel
    have hq : (tuple.2.invoke h v0).1 = retval.quit_ := by
      rcases hsel with rfl | hq
      · have hv0 : hasExit this (v0.heap this) := by
          rw [frame_heap h depth this v v0 0 t0 hf]; exact hv
        obtain ⟨label, h0⟩ := hasExit_index hv0
        rw [h0] at hi
        injection hi with hi
        subst hi
        rfl
      · exact hq
    have hd : dispatch h this init input v0 =
        Except.ok (some 0, ⟨(tuple.2.invoke h v0).2.heap,
            h.onExitMenu this (tuple.2.invoke h v0).2.user⟩,
          [Event.invoke tuple.2 retval.quit_, Event.onExitMenu this]) := by
      rw [dispatch_in h this init input v0 tuple hi]
      cases hr : tuple.2.invoke h v0 with
      | mk r w2 =>
        rw [hr] at hq
        simp only at hq
        subst hq
        rfl
    rw [displayLoop_succ h depth this init fuel0 v v0 _ input _ t0 _ hf hd]
    simp [again]

/-- The run of [Exit, Foo, Bar] on the selections 1, 2, 7, 0 returns with one call of
onExitMenu, at the end. -/
theorem C2_exit_exactly_once_witness :
    fooBar.menuSize + 1 < SIZE_MOD ∧
      display demoHooks 1 10 0 (fooBarWorld [1, 2, 7, 0]) = Except.ok (fooBarWorld [], fooBarRun) ∧
      fooBarRun.count (Event.onExitMenu 0) = 1 :=
  ⟨by decide, rfl,
    (C2_exit_exactly_once demoHooks 1 10 0 (fooBarWorld [1, 2, 7, 0]) (fooBarWorld []) fooBarRun
      (by decide) fooBar_hasExit (fun w idx tuple => scripted_keeps_exit _ _ _ 0 w idx tuple)
      rfl).2.1⟩

/-- C3: after a frame that read the selection, the dispatch returns, and the loop stops after
this pass if and only if the selection is in range and its action returns quit, or it is out of
range and onBadInput returns false; in every other case the loop runs the next pass; and a
selection of 0 always stops. Here n0 is the item count when display was entered. -/
theorem C3_stop_iff {σ : Type} (h : Hooks σ) (depth : Nat) (this : Addr) (n0 : Nat)
    (w w0 : World σ) (input : Nat) (t0 : List Event)
    (hn0 : n0 + 1 < SIZE_MOD) (hexit : hasExit this (w.heap this))
    (hf : frame h depth this w = Except.ok (input, w0, t0)) :
    ∃ (ctl : Option Nat) (w1 : World σ) (t1 : List Event),
      dispatch h this ((n0 + 1) % SIZE_MOD) input w0 = Except.ok (ctl, w1, t1) ∧
      (again ctl = false ↔ stops h this input w0) ∧
      (stops h this input w0 → ∀ fuel : Nat,
        displayLoop h depth this ((n0 + 1) % SIZE_MOD) (fuel + 1) w = Except.ok (w1, t0 ++ t1)) ∧
      (¬ stops h this input w0 → ∀ fuel : Nat,
        displayLoop h depth this ((n0 + 1) % SIZE_MOD) (fuel + 1) w =
          after (t0 ++ t1) (displayLoop h depth this ((n0 + 1) % SIZE_MOD) fuel w1)) ∧
      (input = 0 → stops h this input w0) := by
  have hexit0 : hasExit this (w0.heap this) := by
    rw [frame_heap h depth this w w0 input t0 hf]; exact hexit
  obtain ⟨ctl, w1, t1, hd, hc⟩ :=
    dispatch_cases h this ((n0 + 1) % SIZE_MOD) input w0 (init_ne_zero n0 hn0) hexit0
  have hzero : input = 0 → stops h this input w0 := by
    rintro rfl
    obtain ⟨label, h0⟩ := hasExit_index hexit0
    obtain ⟨l, rest, he⟩ := hexit0
    exact Or.inl ⟨by simp [menu.menuSize, storage.size, he], _, h0, rfl⟩
  refine ⟨ctl, w1, t1, hd, ?_, ?_, ?_, hzero⟩
  · rcases hc with ⟨hag, hns, -, -⟩ | ⟨hag, hs, -⟩
    · simp [hag, hns]
    · simp [hag, hs]
  · intro hs fuel
    rw [displayLoop_succ h depth this _ fuel w w0 w1 input ctl t0 t1 hf hd]
    rcases hc with ⟨-, hns, -, -⟩ | ⟨hag, -, -⟩
    · exact absurd hs hns
    · simp [hag]
  · intro hns fuel
    rw [displayLoop_succ h depth this _ fuel w w0 w1 input ctl t0 t1 hf hd]
    rcases hc with ⟨hag, -, -, -⟩ | ⟨-, hs, -⟩
    · simp [hag]
    · exact absurd hs hns

/-- In [Exit, Foo, Bar], with 3 items on entry, the selection 2 (an action returning pause_)
gives a dispatch that returns and whose pass is the last one exactly when the stop condition
holds. -/
theorem C3_stop_iff_witness :
    3 + 1 < SIZE_MOD ∧
      frame demoHooks 1 0 (fooBarWorld [2]) = Except.ok (2, fooBarWorld [], fooBarFrame 2) ∧
      ∃ (ctl : Option Nat) (w1 : World (List Nat)) (t1 : List Event),
        dispatch demoHooks 0 ((3 + 1) % SIZE_MOD) 2 (fooBarWorld []) = Except.ok (ctl, w1, t1) ∧
        (again ctl = false ↔ stops demoHooks 0 2 (fooBarWorld [])) :=
  ⟨by decide, rfl,
    match C3_stop_iff demoHooks 1 0 3 (fooBarWorld [2]) (fooBarWorld []) 2 (fooBarFrame 2)
      (by decide) fooBar_hasExit rfl with
    | ⟨ctl, w1, t1, hd, hiff, _⟩ => ⟨ctl, w1, t1, hd, hiff⟩⟩

/-- C4: a selection at or above the current item count makes the pass call onBadInput with
exactly that value and invoke no item; when onBadInput returns false the pass calls onExitMenu
right after it, with no onPause, and display returns. -/
theorem C4_bad_input {σ : Type} (h : Hooks σ) (depth : Nat) (this : Addr) (init : Nat)
    (w w0 : World σ) (input : Nat) (t0 : List Event)
    (hf : frame h depth this w = Except.ok (input, w0, t0))
    (hv : (w.heap this).menuSize ≤ input) :
    ∃ (ctl : Option Nat) (w1 : World σ) (t1 : List Event),
      dispatch h this init input w0 = Except.ok (ctl, w1, t1) ∧
      t1 = [Event.onBadInput this input (h.onBadInput this input w0.user).1,
        if (h.onBadInput this input w0.user).1 then Event.onPause this
        else Event.onExitMenu this] ∧
      (t0 ++ t1).filter isInvoke = [] ∧
      ((h.onBadInput this input w0.user).1 = false → ∀ fuel : Nat,
        displayLoop h depth this init (fuel + 1) w =
          Except.ok (⟨w.heap, h.onExitMenu this (h.onBadInput this input w0.user).2⟩,
            t0 ++ [Event.onBadInput this input false, Event.onExitMenu this])) := by
  have hh := frame_heap h depth this w w0 input t0 hf
  have hv0 : (w0.heap this).m_storage.size ≤ input := by rw [hh]; exact hv
  have hd := dispatch_bad h this init input w0 hv0
  have hni := frame_no_invoke h depth this w w0 input t0 hf
  by_cases hb : (h.onBadInput this input w0.user).1 = false
  · rw [if_pos hb] at hd
    refine ⟨_, _, _, hd, by simp [hb], ?_, ?_⟩
    · rw [List.filter_append, hni]; rfl
    · intro _ fuel
      rw [displayLoop_succ h depth this init fuel w w0 _ input _ t0 _ hf hd, hh]
      simp [again]
  · rw [if_neg hb] at hd
    have hb1 : (h.onBadInput this input w0.user).1 = true := by simpa using hb
    refine ⟨_, _, _, hd, by simp [hb1], ?_, ?_⟩
    · rw [List.filter_append, hni]; rfl
    · intro hb2; exact absurd hb2 hb

/-- With an empty input queue the selection is the largest size_t; onBadInput gets that value,
returns false, and display returns after onExitMenu without any invoke or onPause. -/
theorem C4_bad_input_witness :
    frame strictHooks 1 0 (fooBarWorld []) =
        Except.ok (SIZE_MOD - 1, fooBarWorld [],
          [Event.onStartMenu 0, Event.onBeforeBreadCrumb 0, Event.onBreadCrumb 0 true,
            Event.onAfterBreadCrumb 0, Event.displayItem 0 1 "Foo", Event.displayItem 0 2 "Bar",
            Event.displayItem 0 0 "Exit", Event.userInput 0 (SIZE_MOD - 1)]) ∧
      fooBar.menuSize ≤ SIZE_MOD - 1 ∧
      displayLoop strictHooks 1 0 4 (5 + 1) (fooBarWorld []) =
        Except.ok (fooBarWorld [],
          [Event.onStartMenu 0, Event.onBeforeBreadCrumb 0, Event.onBreadCrumb 0 true,
            Event.onAfterBreadCrumb 0, Event.displayItem 0 1 "Foo", Event.displayItem 0 2 "Bar",
            Event.displayItem 0 0 "Exit", Event.userInput 0 (SIZE_MOD - 1)] ++
          [Event.onBadInput 0 (SIZE_MOD - 1) false, Event.onExitMenu 0]) :=
  ⟨rfl, by decide,
    match C4_bad_input strictHooks 1 0 4 (fooBarWorld []) (fooBarWorld []) (SIZE_MOD - 1) _
      rfl (by decide) with
    | ⟨_, _, _, _, _, _, hret⟩ => hret rfl 5⟩

/-- C5: a pass that selects an index i with 1 <= i < size whose action returns return_ without
changing the menu invokes that action once and calls nothing else, goes on to the next pass, and
leaves the menu object (items, parent link, separator) as it was; and a whole call of display
leaves every menu object that its actions leave alone as it was, be it the menu itself or the
parent from whose item the call was made. -/
theorem C5_return_keeps_menu {σ : Type} (h : Hooks σ) (depth : Nat) (this : Addr) (init : Nat)
    (w w0 w1 : World σ) (input : Nat) (t0 : List Event) (tuple : String × basicItem)
    (hf : frame h depth this w = Except.ok (input, w0, t0))
    (h1 : 1 ≤ input)
    (hi : (w.heap this).m_storage.index input = some tuple)
    (hr : tuple.2.invoke h w0 = (retval.return_, w1))
    (hkeep : w1.heap this = w0.heap this) :
    dispatch h this init input w0 =
        Except.ok (some input, w1, [Event.invoke tuple.2 retval.return_]) ∧
      (∀ fuel : Nat, displayLoop h depth this init (fuel + 1) w =
        after (t0 ++ [Event.invoke tuple.2 retval.return_])
          (displayLoop h depth this init fuel w1)) ∧
      w1.heap this = w.heap this ∧
      (∀ a : Addr,
        (∀ (v : World σ) (idx : Nat) (tp : String × basicItem),
          (v.heap this).m_storage.index idx = some tp →
          (tp.2.invoke h v).2.heap a = v.heap a) →
        ∀ (fuel : Nat) (v v1 : World σ) (tr : List Event),
          display h depth fuel this v = Except.ok (v1, tr) → v1.heap a = v.heap a) := by
  have hh := frame_heap h depth this w w0 input t0 hf
  have hi0 : (w0.heap this).m_storage.index input = some tuple := by rw [hh]; exact hi
  have hd : dispatch h this init input w0 =
      Except.ok (some input, w1, [Event.invoke tuple.2 retval.return_]) := by
    rw [dispatch_in h this init input w0 tuple hi0, hr]
  refine ⟨hd, ?_, by rw [hkeep, hh], ?_⟩
  · intro fuel
    rw [displayLoop_succ h depth this init fuel w w0 w1 input _ t0 _ hf hd]
    have hne : input ≠ 0 := Nat.pos_iff_ne_zero.mp h1
    simp [again, hne]
  · intro a hall fuel v v1 tr hrun
    exact displayLoop_heap h depth this _ a hall fuel v v1 tr hrun


/-- Nesting: the parent [Exit, Sub] selects 1; Sub runs the child menu, which reads the
selection 0 and exits, and returns return_.  The pass invokes Sub once and calls nothing else, and
the parent menu object is what it was. -/
theorem C5_return_keeps_menu_witness :
    frame familyHooks 2 0 ⟨family, [1, 0, 0]⟩ =
        Except.ok (1, ⟨family, [0, 0]⟩,
          [Event.onStartMenu 0, Event.onBeforeBreadCrumb 0, Event.onBreadCrumb 0 false,
            Event.onAfterBreadCrumb 0, Event.displayItem 0 1 "Sub", Event.displayItem 0 0 "Exit",
            Event.userInput 0 1]) ∧
      (family 0).m_storage.index 1 = some ("Sub", basicItem.functionItem 9) ∧
      (basicItem.functionItem 9).invoke familyHooks ⟨family, [0, 0]⟩ =
        (retval.return_, ⟨family, [0]⟩) ∧
      dispatch familyHooks 0 3 1 ⟨family, [0, 0]⟩ =
        Except.ok (some 1, ⟨family, [0]⟩,
          [Event.invoke (basicItem.functionItem 9) retval.return_]) :=
  ⟨rfl, rfl, rfl,
    (C5_return_keeps_menu familyHooks 2 0 3 ⟨family, [1, 0, 0]⟩ ⟨family, [0, 0]⟩ ⟨family, [0]⟩ 1
      _ ("Sub", basicItem.functionItem 9) rfl (by decide) rfl rfl rfl).1⟩

/-- C6: for a parent chain m0 (root), ..., mk read root first, one breadcrumb render by mk, given
enough fuel for the depth, makes exactly the calls onBeforeBreadCrumb of mk, then the trail of the
specification from the root down (one onBreadCrumb per menu, a separator before a menu exactly
when the identity before it returned true, none before the root), then onAfterBreadCrumb of mk. -/
theorem C6_breadcrumb_trail {σ : Type} (h : Hooks σ) (heap : Addr → menu) (anc : List Addr)
    (mk : Addr) (fuel : Nat) (s : σ)
    (hchain : isChain heap none (anc ++ [mk]) = true) (hfuel : anc.length + 1 ≤ fuel) :
    _breadcrumb h heap fuel mk s =
      Except.ok
        (h.onAfterBreadCrumb mk
            (trail h heap (anc ++ [mk]) false (h.onBeforeBreadCrumb mk s)).2.1,
          [Event.onBeforeBreadCrumb mk] ++
            (trail h heap (anc ++ [mk]) false (h.onBeforeBreadCrumb mk s)).2.2 ++
            [Event.onAfterBreadCrumb mk]) := by
  unfold _breadcrumb
  rw [breadcrumb_chain h heap anc mk hchain fuel _ hfuel]


/-- For root, A, B nested three deep with every identity returning true the calls are: before,
root, separator, A, separator, B, after; no separator comes before the root. -/
theorem C6_breadcrumb_trail_witness :
    isChain nested none ([0, 1] ++ [2]) = true ∧ [0, 1].length + 1 ≤ 3 ∧
      _breadcrumb strictHooks nested 3 2 [] =
        Except.ok ([],
          [Event.onBeforeBreadCrumb 2, Event.onBreadCrumb 0 true,
            Event.onBreadCrumbSep 1 " >> ", Event.onBreadCrumb 1 true,
            Event.onBreadCrumbSep 2 " / ", Event.onBreadCrumb 2 true,
            Event.onAfterBreadCrumb 2]) :=
  ⟨by decide, by decide, C6_breadcrumb_trail strictHooks nested [0, 1] 2 3 [] (by decide)
    (by decide)⟩


/-- C7: a freshly constructed menu has exactly one item, at index 0, labelled Exit; and after any
sequence of push calls index 0 still holds that item under the label Exit, the pushed entries
following it from index 1 on in the order of the calls. -/
theorem C7_exit_label_stays (this : Addr) (ops : List Op)
    (hpush : ∀ op ∈ ops, op.isPush = true) :
    (menu.ctor this).menuSize = 1 ∧
      (menu.ctor this).m_storage.index 0 =
        some ("Exit", basicItem.methodItem Method.menuExit this) ∧
      (menu.build this ops).m_storage.index 0 =
        some ("Exit", basicItem.methodItem Method.menuExit this) ∧
      (menu.build this ops).m_storage.m_entries =
        ("Exit", basicItem.methodItem Method.menuExit this) :: pushedBy ops := by
  have he := build_entries this ops
  rw [exitText_of_isPush ops "Exit" hpush] at he
  refine ⟨rfl, rfl, ?_, he⟩
  simp [storage.index, he]

/-- After the two pushes that make [Exit, Foo, Bar], index 0 holds the exit item labelled Exit. -/
theorem C7_exit_label_stays_witness :
    (∀ op ∈ [Op.pushFunctor "Foo" 1, Op.pushFunctor "Bar" 2], op.isPush = true) ∧
      fooBar.m_storage.index 0 = some ("Exit", basicItem.methodItem Method.menuExit 0) :=
  ⟨by decide,
    (C7_exit_label_stays 0 [Op.pushFunctor "Foo" 1, Op.pushFunctor "Bar" 2] (by decide)).2.2.1⟩

/-- C8: each overload of push on a menu with n items gives a menu with n + 1 items whose entry at
index n is the pushed label and action and whose entries below n are the previous ones; so the
size of a constructed menu is 1 plus the number of pushes among the operations made on it. -/
theorem C8_push_appends (m : menu) (menuText : String) :
    (∀ (entry : Method) (cv : Addr),
        (m.push menuText entry cv).menuSize = m.menuSize + 1 ∧
        (m.push menuText entry cv).m_storage.index m.menuSize =
          some (menuText, basicItem.methodItem entry cv) ∧
        ∀ i : Nat, i < m.menuSize →
          (m.push menuText entry cv).m_storage.index i = m.m_storage.index i) ∧
      (∀ f : Nat,
        (m.pushFunctor menuText f).menuSize = m.menuSize + 1 ∧
        (m.pushFunctor menuText f).m_storage.index m.menuSize =
          some (menuText, basicItem.functionItem f) ∧
        ∀ i : Nat, i < m.menuSize →
          (m.pushFunctor menuText f).m_storage.index i = m.m_storage.index i) ∧
      ∀ (this : Addr) (ops : List Op),
        (menu.build this ops).menuSize = 1 + (ops.filter Op.isPush).length := by
  refine ⟨?_, ?_, ?_⟩
  · intro entry cv
    refine ⟨by simp [menu.push, menu.menuSize, storage.push, storage.size], ?_, ?_⟩
    · simp [menu.push, menu.menuSize, storage.push, storage.size, storage.index]
    · intro i hi
      simp only [menu.menuSize, storage.size] at hi
      simp [menu.push, storage.push, storage.index, List.getElem?_append_left hi]
  · intro f
    refine ⟨by simp [menu.pushFunctor, menu.menuSize, storage.push, storage.size], ?_, ?_⟩
    · simp [menu.pushFunctor, menu.menuSize, storage.push, storage.size, storage.index]
    · intro i hi
      simp only [menu.menuSize, storage.size] at hi
      simp [menu.pushFunctor, storage.push, storage.index, List.getElem?_append_left hi]
  · intro this ops
    simp only [menu.menuSize, storage.size]
    rw [build_entries, List.length_cons, pushedBy_length]
    omega

/-- Pushing Baz on [Exit, Foo, Bar] gives four items with Baz at index 3. -/
theorem C8_push_appends_witness :
    (fooBar.pushFunctor "Baz" 3).menuSize = 3 + 1 ∧
      (fooBar.pushFunctor "Baz" 3).m_storage.index 3 = some ("Baz", basicItem.functionItem 3) :=
  ⟨((C8_push_appends fooBar "Baz").2.1 3).1, ((C8_push_appends fooBar "Baz").2.1 3).2.1⟩

/-- C9: none of push, clearMenu, setParent, setBreadcrumbSeparator and setExitMenuText removes or
reorders entries: the size does not decrease and every entry keeps its index and its action (and
its label, except that setExitMenuText relabels index 0); and a call of display whose actions do
not change the menu leaves the menu object as it was. -/
theorem C9_entries_stay (this : Addr) (m : menu) (op : Op) :
    m.menuSize ≤ (op.apply this m).menuSize ∧
      (∀ (i : Nat) (tuple : String × basicItem), m.m_storage.index i = some tuple →
        ∃ label : String, (op.apply this m).m_storage.index i = some (label, tuple.2) ∧
          (label = tuple.1 ∨ (i = 0 ∧ op = Op.setExitMenuText label))) ∧
      ∀ (σ : Type) (h : Hooks σ) (depth fuel : Nat) (w w1 : World σ) (tr : List Event),
        (∀ (v : World σ) (idx : Nat) (tp : String × basicItem),
          (v.heap this).m_storage.index idx = some tp →
          (tp.2.invoke h v).2.heap this = v.heap this) →
        display h depth fuel this w = Except.ok (w1, tr) → w1.heap this = w.heap this := by
  refine ⟨?_, ?_, ?_⟩
  · cases hes : m.m_storage.m_entries with
    | nil => simp [menu.menuSize, storage.size, hes]
    | cons e es =>
      obtain ⟨label, item⟩ := e
      simp only [menu.menuSize, storage.size]
      rw [apply_entries this m label item es op hes, hes]
      simp
  · intro i tuple hi
    cases hes : m.m_storage.m_entries with
    | nil => simp [storage.index, hes] at hi
    | cons e es =>
      obtain ⟨label, item⟩ := e
      have ha := apply_entries this m label item es op hes
      simp only [storage.index, hes] at hi
      simp only [storage.index, ha]
      cases i with
      | zero =>
        simp only [List.get?_cons_zero, Option.some.injEq] at hi
        subst hi
        refine ⟨exitText label [op], by simp, ?_⟩
        cases op <;> simp [exitText]
      | succ j =>
        simp only [List.get?_cons_succ] at hi
        refine ⟨tuple.1, ?_, Or.inl rfl⟩
        simp only [List.get?_cons_succ]
        rw [List.get?_eq_getElem?] at hi ⊢
        have hj : j < es.length := by
          by_contra hc
          rw [List.getElem?_eq_none (Nat.le_of_not_lt hc)] at hi
          cases hi
        rw [List.getElem?_append_left hj, hi]
  · intro σ h depth fuel w w1 tr hall hrun
    exact displayLoop_heap h depth this _ this hall fuel w w1 tr hrun

/-- On [Exit, Foo, Bar] clearMenu keeps the three entries, and Foo stays at index 1. -/
theorem C9_entries_stay_witness :
    fooBar.menuSize ≤ (Op.clearMenu.apply 0 fooBar).menuSize ∧
      fooBar.m_storage.index 1 = some ("Foo", basicItem.functionItem 1) ∧
      ∃ label : String, (Op.clearMenu.apply 0 fooBar).m_storage.index 1 =
          some (label, basicItem.functionItem 1) ∧
        (label = "Foo" ∨ (1 = 0 ∧ Op.clearMenu = Op.setExitMenuText label)) :=
  ⟨(C9_entries_stay 0 fooBar Op.clearMenu).1, rfl,
    (C9_entries_stay 0 fooBar Op.clearMenu).2.1 1 ("Foo", basicItem.functionItem 1) rfl⟩

/-- C10: a menu made by its constructor and any sequence of push, clearMenu, setParent,
setBreadcrumbSeparator and setExitMenuText has at least one item, and its item 0 is the exit
action, whose invoke returns quit; so a pass of the loop of display on it never reads outside the
storage, neither at index 0 when rendering nor at the selection when dispatching. -/
theorem C10_never_empty (this : Addr) (ops : List Op) :
    1 ≤ (menu.build this ops).menuSize ∧
      (∃ label : String, (menu.build this ops).m_storage.index 0 =
        some (label, basicItem.methodItem Method.menuExit this)) ∧
      (∀ (σ : Type) (h : Hooks σ) (w : World σ),
        ((basicItem.methodItem Method.menuExit this).invoke h w).1 = retval.quit_) ∧
      ∀ (σ : Type) (h : Hooks σ) (depth init input : Nat) (w : World σ),
        w.heap this = menu.build this ops →
        frame h depth this w ≠ Except.error Fault.outOfRange ∧
        dispatch h this init input w ≠ Except.error Fault.outOfRange ∧
        iteration h depth this init w ≠ Except.error Fault.outOfRange := by
  have he := build_entries this ops
  refine ⟨by simp [menu.menuSize, storage.size, he],
    ⟨exitText "Exit" ops, by simp [storage.index, he]⟩, fun σ h w => rfl, ?_⟩
  intro σ h depth init input w hw
  have hframe : frame h depth this w ≠ Except.error Fault.outOfRange := by
    intro hf
    unfold frame at hf
    cases hb : _breadcrumb h w.heap depth this (h.onStartMenu this w.user) with
    | error e =>
      simp only [hb] at hf
      unfold _breadcrumb at hb
      cases hr : breadcrumb h w.heap depth this
          (h.onBeforeBreadCrumb this (h.onStartMenu this w.user)) with
      | error e2 =>
        simp only [hr] at hb
        have := breadcrumb_error h w.heap depth this _ e2 hr
        injection hb with hb
        injection hf with hf
        rw [hf] at hb
        rw [hb] at this
        cases this
      | ok r => simp [hr] at hb
    | ok r =>
      obtain ⟨s1, tb⟩ := r
      simp only [hb] at hf
      have h0 : (w.heap this).m_storage.index 0 =
          some (exitText "Exit" ops, basicItem.methodItem Method.menuExit this) := by
        rw [hw]; simp [storage.index, he]
      simp [h0] at hf
  have hdispatch : ∀ (v : Nat) (u : World σ),
      dispatch h this init v u ≠ Except.error Fault.outOfRange := by
    intro v u hd
    by_cases hv : v < (u.heap this).m_storage.size
    · obtain ⟨tuple, hi⟩ := index_lt hv
      rw [dispatch_in h this init v u tuple hi] at hd
      split at hd <;> cases hd
    · rw [dispatch_bad h this init v u (Nat.le_of_not_lt hv)] at hd
      split at hd <;> cases hd
  refine ⟨hframe, hdispatch input w, ?_⟩
  intro hit
  unfold iteration at hit
  cases hf : frame h depth this w with
  | error e =>
    simp only [hf] at hit
    injection hit with hit
    rw [hit] at hf
    exact hframe hf
  | ok r =>
    obtain ⟨v, u, t⟩ := r
    simp only [hf] at hit
    cases hd : dispatch h this init v u with
    | error e =>
      simp only [hd] at hit
      injection hit with hit
      rw [hit] at hd
      exact hdispatch v u hd
    | ok r2 => simp [hd] at hit

/-- The menu [Exit, Foo, Bar], after clearMenu and a new exit text, still has its exit item at
index 0, and a pass on it that selects 2 does not fault. -/
theorem C10_never_empty_witness :
    1 ≤ (menu.build 0 [Op.pushFunctor "Foo" 1, Op.clearMenu,
        Op.setExitMenuText "Back"]).menuSize ∧
      (fooBarWorld [2]).heap 0 =
        menu.build 0 [Op.pushFunctor "Foo" 1, Op.pushFunctor "Bar" 2] ∧
      iteration demoHooks 1 0 4 (fooBarWorld [2]) ≠ Except.error Fault.outOfRange :=
  ⟨(C10_never_empty 0 [Op.pushFunctor "Foo" 1, Op.clearMenu, Op.setExitMenuText "Back"]).1, rfl,
    ((C10_never_empty 0 [Op.pushFunctor "Foo" 1, Op.pushFunctor "Bar" 2]).2.2.2
      (List Nat) demoHooks 1 4 2 (fooBarWorld [2]) rfl).2.2⟩

/-- C11: a pass that selects an index i with 1 <= i < size whose action returns pause_ invokes
that action once, then calls onPause once, calls neither onExitMenu nor onBadInput, and goes on
to the next pass with the selection kept, as a pass whose action returns return_ does. -/
theorem C11_pause_then_continue {σ : Type} (h : Hooks σ) (depth : Nat) (this : Addr)
    (init : Nat) (w w0 w1 : World σ) (input : Nat) (t0 : List Event)
    (tuple : String × basicItem)
    (hf : frame h depth this w = Except.ok (input, w0, t0))
    (h1 : 1 ≤ input)
    (hi : (w.heap this).m_storage.index input = some tuple)
    (hr : tuple.2.invoke h w0 = (retval.pause_, w1)) :
    input < (w.heap this).menuSize ∧
      dispatch h this init input w0 =
        Except.ok (some input, ⟨w1.heap, h.onPause this w1.user⟩,
          [Event.invoke tuple.2 retval.pause_, Event.onPause this]) ∧
      again (some input) = true ∧
      ∀ fuel : Nat, displayLoop h depth this init (fuel + 1) w =
        after (t0 ++ [Event.invoke tuple.2 retval.pause_, Event.onPause this])
          (displayLoop h depth this init fuel ⟨w1.heap, h.onPause this w1.user⟩) := by
  have hh := frame_heap h depth this w w0 input t0 hf
  have hi0 : (w0.heap this).m_storage.index input = some tuple := by rw [hh]; exact hi
  have hd : dispatch h this init input w0 =
      Except.ok (some input, ⟨w1.heap, h.onPause this w1.user⟩,
        [Event.invoke tuple.2 retval.pause_, Event.onPause this]) := by
    rw [dispatch_in h this init input w0 tuple hi0, hr]
  have hne : input ≠ 0 := Nat.pos_iff_ne_zero.mp h1
  refine ⟨index_some hi, hd, by simp [again, hne], ?_⟩
  intro fuel
  rw [displayLoop_succ h depth this init fuel w w0 _ input _ t0 _ hf hd]
  simp [again, hne]

/-- In [Exit, Foo, Bar] the selection 2 (Bar returns pause_) invokes Bar, then calls onPause, and
the loop goes on: the next pass reads 0 and exits. -/
theorem C11_pause_then_continue_witness :
    frame demoHooks 1 0 (fooBarWorld [2, 0]) = Except.ok (2, fooBarWorld [0], fooBarFrame 2) ∧
      fooBar.m_storage.index 2 = some ("Bar", basicItem.functionItem 2) ∧
      (basicItem.functionItem 2).invoke demoHooks (fooBarWorld [0]) =
        (retval.pause_, fooBarWorld [0]) ∧
      displayLoop demoHooks 1 0 4 (1 + 1) (fooBarWorld [2, 0]) =
        Except.ok (fooBarWorld [],
          fooBarFrame 2 ++ [Event.invoke (basicItem.functionItem 2) retval.pause_,
              Event.onPause 0] ++
            (fooBarFrame 0 ++
              [Event.invoke (basicItem.methodItem Method.menuExit 0) retval.quit_,
                Event.onExitMenu 0])) :=
  ⟨rfl, rfl, rfl,
    ((C11_pause_then_continue demoHooks 1 0 4 (fooBarWorld [2, 0]) (fooBarWorld [0])
      (fooBarWorld [0]) 2 (fooBarFrame 2) ("Bar", basicItem.functionItem 2) rfl (by decide)
      rfl rfl).2.2.2 1).trans rfl⟩

/-- C12: when the selection is out of range and onBadInput returns true, the pass calls onPause
once right after onBadInput, does not call onExitMenu, and the loop goes on to the next pass: the
selection is reset to the item count on entry plus 1, which is not 0 (n0 is that count). -/
theorem C12_bad_input_continue {σ : Type} (h : Hooks σ) (depth : Nat) (this : Addr) (n0 : Nat)
    (w w0 : World σ) (input : Nat) (t0 : List Event)
    (hn0 : n0 + 1 < SIZE_MOD)
    (hf : frame h depth this w = Except.ok (input, w0, t0))
    (hv : (w.heap this).menuSize ≤ input)
    (hb : (h.onBadInput this input w0.user).1 = true) :
    dispatch h this ((n0 + 1) % SIZE_MOD) input w0 =
        Except.ok (some (n0 + 1),
          ⟨w.heap, h.onPause this (h.onBadInput this input w0.user).2⟩,
          [Event.onBadInput this input true, Event.onPause this]) ∧
      again (some (n0 + 1)) = true ∧
      ∀ fuel : Nat, displayLoop h depth this ((n0 + 1) % SIZE_MOD) (fuel + 1) w =
        after (t0 ++ [Event.onBadInput this input true, Event.onPause this])
          (displayLoop h depth this ((n0 + 1) % SIZE_MOD) fuel
            ⟨w.heap, h.onPause this (h.onBadInput this input w0.user).2⟩) := by
  have hh := frame_heap h depth this w w0 input t0 hf
  have hv0 : (w0.heap this).m_storage.size ≤ input := by rw [hh]; exact hv
  have hd := dispatch_bad h this ((n0 + 1) % SIZE_MOD) input w0 hv0
  rw [if_neg (by simp [hb]), hh, Nat.mod_eq_of_lt hn0] at hd
  refine ⟨by rw [Nat.mod_eq_of_lt hn0]; exact hd, by simp [again], ?_⟩
  intro fuel
  rw [Nat.mod_eq_of_lt hn0]
  rw [displayLoop_succ h depth this (n0 + 1) fuel w w0 _ input _ t0 _ hf hd]
  simp [again]

/-- In [Exit, Foo, Bar], entered with 3 items, the selection 7 is out of range; onBadInput
returns true, onPause follows, and the loop goes on: the next pass reads 0 and exits. -/
theorem C12_bad_input_continue_witness :
    3 + 1 < SIZE_MOD ∧
      frame demoHooks 1 0 (fooBarWorld [7, 0]) = Except.ok (7, fooBarWorld [0], fooBarFrame 7) ∧
      fooBar.menuSize ≤ 7 ∧
      displayLoop demoHooks 1 0 ((3 + 1) % SIZE_MOD) (1 + 1) (fooBarWorld [7, 0]) =
        Except.ok (fooBarWorld [],
          fooBarFrame 7 ++ [Event.onBadInput 0 7 true, Event.onPause 0] ++
            (fooBarFrame 0 ++
              [Event.invoke (basicItem.methodItem Method.menuExit 0) retval.quit_,
                Event.onExitMenu 0])) :=
  ⟨by decide, rfl, by decide,
    ((C12_bad_input_continue demoHooks 1 0 3 (fooBarWorld [7, 0]) (fooBarWorld [0]) 7
      (fooBarFrame 7) (by decide) rfl (by decide) rfl).2.2 1).trans rfl⟩

/-! ### Acyclic parent links -/

theorem ancestor_add (heap : Addr → menu) :
    ∀ (i j : Nat) (a : Addr),
      ancestor heap (i + j) a = (ancestor heap i a).bind (ancestor heap j) := by
  intro i
  induction i with
  | zero => intro j a; simp [ancestor]
  | succ i ih =>
    intro j a
    rw [Nat.succ_add, ancestor, ancestor]
    cases (heap a).m_parent with
    | none => rfl
    | some parent => exact ih j parent

theorem ancestor_none_add (heap : Addr → menu) (n d : Nat) (a : Addr)
    (hn : ancestor heap n a = none) : ancestor heap (n + d) a = none := by
  rw [ancestor_add, hn]
  rfl

/-- A walk that never meets `child` is the same walk after `child.setParent(parent)`. -/
theorem ancestor_setParentAt (heap : Addr → menu) (child parent : Addr) :
    ∀ (k : Nat) (a : Addr), (∀ j : Nat, ancestor heap j a ≠ some child) →
      ancestor (setParentAt heap child parent) k a = ancestor heap k a := by
  intro k
  induction k with
  | zero => intro a _; rfl
  | succ k ih =>
    intro a hnever
    have hne : a ≠ child := by
      intro he
      exact hnever 0 (by rw [he]; rfl)
    rw [ancestor, ancestor]
    have hsame : setParentAt heap child parent a = heap a := by simp [setParentAt, hne]
    rw [hsame]
    cases hp : (heap a).m_parent with
    | none => rfl
    | some q =>
      apply ih q
      intro j hj
      apply hnever (j + 1)
      rw [ancestor, hp]
      exact hj

/-- Walks that ended before a guarded call of `setParent` still end after it. -/
theorem reachesRoot_setParentAt (heap : Addr → menu) (child parent : Addr)
    (hroot : ∀ a : Addr, ∃ n : Nat, ancestor heap (n + 1) a = none)
    (hg : ∀ n : Nat, ancestor heap n parent ≠ some child) :
    ∀ a : Addr, ∃ n : Nat, ancestor (setParentAt heap child parent) (n + 1) a = none := by
  obtain ⟨np, hnp⟩ := hroot parent
  have hparent : ancestor (setParentAt heap child parent) (np + 1) parent = none := by
    rw [ancestor_setParentAt heap child parent (np + 1) parent hg]
    exact hnp
  have hchild : ancestor (setParentAt heap child parent) (np + 1 + 1) child = none := by
    rw [ancestor]
    simp only [setParentAt, if_true, menu.setParent]
    exact hparent
  have key : ∀ (n : Nat) (a : Addr), ancestor heap (n + 1) a = none →
      ∃ n2 : Nat, ancestor (setParentAt heap child parent) (n2 + 1) a = none := by
    intro n
    induction n with
    | zero =>
      intro a ha
      by_cases hc : a = child
      · exact ⟨np + 1, by rw [hc]; exact hchild⟩
      · refine ⟨0, ?_⟩
        rw [ancestor] at ha ⊢
        have hsame : setParentAt heap child parent a = heap a := by simp [setParentAt, hc]
        rw [hsame]
        cases hp : (heap a).m_parent with
        | none => rfl
        | some q => rw [hp] at ha; simp [ancestor] at ha
    | succ n ih =>
      intro a ha
      by_cases hc : a = child
      · exact ⟨np + 1, by rw [hc]; exact hchild⟩
      · have hsame : setParentAt heap child parent a = heap a := by simp [setParentAt, hc]
        rw [ancestor] at ha
        cases hp : (heap a).m_parent with
        | none =>
          refine ⟨0, ?_⟩
          rw [ancestor, hsame, hp]
        | some q =>
          rw [hp] at ha
          obtain ⟨n2, hn2⟩ := ih q ha
          refine ⟨n2 + 1, ?_⟩
          rw [ancestor, hsame, hp]
          exact hn2
  intro a
  obtain ⟨n, hn⟩ := hroot a
  exact key n a hn

theorem reachesRoot_wire :
    ∀ (calls : List (Addr × Addr)) (heap : Addr → menu),
      (∀ a : Addr, ∃ n : Nat, ancestor heap (n + 1) a = none) → Guarded heap calls →
      ∀ a : Addr, ∃ n : Nat, ancestor (wire heap calls) (n + 1) a = none := by
  intro calls
  induction calls with
  | nil => intro heap hroot _; exact hroot
  | cons c rest ih =>
    intro heap hroot hg
    obtain ⟨h1, h2⟩ := hg
    exact ih (setParentAt heap c.1 c.2) (reachesRoot_setParentAt heap c.1 c.2 hroot h1) h2

/-- A menu whose walk ends is not its own ancestor. -/
theorem not_own_ancestor (heap : Addr → menu) (m : Addr) (N : Nat)
    (hN : ancestor heap (N + 1) m = none) : ∀ n : Nat, ancestor heap (n + 1) m ≠ some m := by
  intro n hcyc
  have hrep : ∀ t : Nat, ancestor heap ((n + 1) * t) m = some m := by
    intro t
    induction t with
    | zero => rfl
    | succ t ih =>
      rw [Nat.mul_succ, ancestor_add, ih]
      exact hcyc
  have hle : N + 1 ≤ (n + 1) * (N + 1) := Nat.le_mul_of_pos_left (N + 1) (Nat.succ_pos n)
  have hnone := ancestor_none_add heap (N + 1) ((n + 1) * (N + 1) - (N + 1)) m hN
  rw [Nat.add_sub_cancel' hle, hrep (N + 1)] at hnone
  cases hnone

/-- The breadcrumb walk returns when given as much fuel as the walk to the root is long. -/
theorem breadcrumb_returns {σ : Type} (h : Hooks σ) (heap : Addr → menu) :
    ∀ (n : Nat) (a : Addr) (s : σ), ancestor heap (n + 1) a = none →
      ∃ r, breadcrumb h heap (n + 1) a s = Except.ok r := by
  intro n
  induction n with
  | zero =>
    intro a s ha
    rw [ancestor] at ha
    rw [breadcrumb]
    cases hp : (heap a).m_parent with
    | none => exact ⟨_, rfl⟩
    | some q => rw [hp] at ha; simp [ancestor] at ha
  | succ n ih =>
    intro a s ha
    rw [ancestor] at ha
    rw [breadcrumb]
    cases hp : (heap a).m_parent with
    | none => exact ⟨_, rfl⟩
    | some q =>
      rw [hp] at ha
      obtain ⟨r, hr⟩ := ih q s ha
      obtain ⟨b, s1, t1⟩ := r
      simp only [hr]
      cases b
      · exact ⟨_, rfl⟩
      · exact ⟨_, rfl⟩

/-- The call m.setParent(m) on a fresh menu m at address 0 makes m its own parent, and the
breadcrumb walk from m then runs out of any amount of fuel. -/
theorem C13_self_parent_counterexample :
    (wire fresh [(0, 0)] 0).m_parent = some 0 ∧
      ancestor (wire fresh [(0, 0)]) 1 0 = some 0 ∧
      ∀ fuel : Nat,
        breadcrumb strictHooks (wire fresh [(0, 0)]) fuel 0 [] =
          Except.error Fault.outOfFuel := by
  refine ⟨rfl, rfl, ?_⟩
  intro fuel
  induction fuel with
  | zero => rfl
  | succ fuel ih =>
    rw [breadcrumb]
    have hp : (wire fresh [(0, 0)] 0).m_parent = some 0 := rfl
    simp only [hp, ih]

/-- C13 (amended): setParent makes no check, and the parent relation stays acyclic for every
sequence of setParent calls in which no call gives a menu itself or one of its descendants as
parent: starting from menus whose walks to the root end, afterwards no menu is its own ancestor
and the breadcrumb walk from any menu reaches a root and returns in finitely many steps. -/
theorem C13_guarded_acyclic (heap : Addr → menu) (calls : List (Addr × Addr))
    (hroot : ∀ a : Addr, ∃ n : Nat, ancestor heap (n + 1) a = none)
    (hg : Guarded heap calls) :
    (∀ (child parent : Addr) (m : menu), (m.setParent parent).m_parent = some parent ∧
        (setParentAt heap child parent child).m_parent = some parent) ∧
      (∀ (m : Addr) (n : Nat), ancestor (wire heap calls) (n + 1) m ≠ some m) ∧
      ∀ a : Addr, ∃ n : Nat, ancestor (wire heap calls) (n + 1) a = none ∧
        ∀ (σ : Type) (h : Hooks σ) (s : σ),
          ∃ r, breadcrumb h (wire heap calls) (n + 1) a s = Except.ok r := by
  have hall := reachesRoot_wire calls heap hroot hg
  refine ⟨?_, ?_, ?_⟩
  · intro child parent m
    exact ⟨rfl, by simp [setParentAt, menu.setParent]⟩
  · intro m n
    obtain ⟨N, hN⟩ := hall m
    exact not_own_ancestor (wire heap calls) m N hN n
  · intro a
    obtain ⟨n, hn⟩ := hall a
    exact ⟨n, hn, fun σ h s => breadcrumb_returns h (wire heap calls) n a s hn⟩

/-- Wiring 1 below 0 and then 2 below 1 on fresh menus meets the guard, and no menu is its own
ancestor afterwards. -/
theorem C13_guarded_acyclic_witness :
    (∀ a : Addr, ∃ n : Nat, ancestor fresh (n + 1) a = none) ∧
      Guarded fresh [(1, 0), (2, 1)] ∧
      ∀ (m : Addr) (n : Nat), ancestor (wire fresh [(1, 0), (2, 1)]) (n + 1) m ≠ some m :=
  have hroot : ∀ a : Addr, ∃ n : Nat, ancestor fresh (n + 1) a = none := fun _ => ⟨0, rfl⟩
  have hg : Guarded fresh [(1, 0), (2, 1)] :=
    ⟨fun n => by cases n <;> simp [ancestor, fresh, menu.ctor, menu.setExitMenuText,
        storage.empty, menu.push],
      fun n => by
        rcases n with _ | _ | n <;>
          simp [ancestor, setParentAt, menu.setParent, fresh, menu.ctor, menu.setExitMenuText,
            storage.empty, menu.push],
      trivial⟩
  ⟨hroot, hg, (C13_guarded_acyclic fresh [(1, 0), (2, 1)] hroot hg).2.1⟩

/-! ### Clearing, relabelling and the console texts -/

/-- On a registry with at least one entry `storage::clear` deletes nothing and keeps every
entry: its deleting branch is guarded by `m_entries.empty()`. -/
theorem clear_nonempty (s : storage) (hs : 1 ≤ s.size) : s.clear = (s, []) := by
  unfold storage.clear
  cases he : s.m_entries with
  | nil => simp [storage.size, he] at hs
  | cons e rest => simp

/-- C14 (the code at the failing input): on the registry [Exit, Foo, Bar] the clear step reached
from clearMenu and from the destructor deletes none of the three stored actions and leaves the
three entries in place, where the claim has all three deleted and the registry empty. -/
theorem C14_clear_keeps_entries :
    fooBar.m_storage.size = 3 ∧
      fooBar.m_storage.clear = (fooBar.m_storage, []) ∧
      fooBar.clearMenu.menuSize = 3 ∧
      fooBar.m_storage.clear.2 ≠ fooBar.m_storage.m_entries.map Prod.snd ∧
      fooBar.m_storage.clear.1.m_entries ≠ [] :=
  ⟨rfl, clear_nonempty fooBar.m_storage (by decide), by decide, by decide, by decide⟩

theorem setText_frame (d : console.menu) (place : console.prompt) (str : String) :
    (d.setText place str).m_width = d.m_width ∧
      (place ≠ console.prompt.pause → (d.setText place str).m_pause = d.m_pause) ∧
      (place ≠ console.prompt.choice → (d.setText place str).m_choice = d.m_choice) ∧
      (place ≠ console.prompt.invalid →
        (d.setText place str).m_invalidInput = d.m_invalidInput) ∧
      (place ≠ console.prompt.location → (d.setText place str).m_location = d.m_location) := by
  cases place <;> simp [console.menu.setText]

/-- The three texts that are rendered from the members set by `setText`. -/
theorem setText_rendered (d : console.menu) (str : String) (cout : List Out)
    (cin : List (Option Nat)) (badIndex : Nat) :
    ((d.setText console.prompt.choice str).userInput cout cin).2.1 = cout ++ [Out.text str] ∧
      (d.setText console.prompt.pause str).onPause cout = cout ++ [Out.text str] ∧
      ((d.setText console.prompt.invalid str).onBadInput badIndex cout).2 =
        cout ++ [Out.text str, Out.endl] := by
  refine ⟨?_, rfl, rfl⟩
  unfold console.menu.userInput
  split <;> rfl

/-- C15 (the code at the failing input): after setText(prompt::location, "Path: ") on a fresh
console menu the member m_location holds "Path: ", yet onBeforeBreadCrumb writes the literal
"Location: " as the breadcrumb lead, for this and for every other text, where the claim has it
write the text that was set. -/
theorem C15_location_text_ignored :
    (console.menu.ctor.setText console.prompt.location "Path: ").m_location = "Path: " ∧
      (console.menu.ctor.setText console.prompt.location "Path: ").onBeforeBreadCrumb [] =
        [Out.text "Location: "] ∧
      (console.menu.ctor.setText console.prompt.location "Path: ").onBeforeBreadCrumb [] ≠
        [Out.text "Path: "] ∧
      ∀ (d : console.menu) (str : String) (cout : List Out),
        (d.setText console.prompt.location str).onBeforeBreadCrumb cout =
          cout ++ [Out.text "Location: "] :=
  ⟨rfl, rfl, by decide, fun _ _ _ => rfl⟩

theorem setExitMenuText_entries (this : Addr) (m : menu) (label : String) (item : basicItem)
    (rest : List (String × basicItem)) (exitStr : String)
    (hm : m.m_storage.m_entries = (label, item) :: rest) :
    menu.setExitMenuText this m exitStr =
      { m with m_storage := ⟨(exitStr, item) :: rest⟩ } := by
  unfold menu.setExitMenuText
  simp [storage.empty, hm]

/-- C17: on a constructed menu, whatever was pushed, setExitMenuText(s) writes only the label at
index 0: the size is the same, index 0 holds the exit action (which returns quit) under the label
s, every entry at index 1 or above is the same, parent link and separator are the same, and a
second call with the same s changes nothing. -/
theorem C17_setExitMenuText_frame (this : Addr) (ops : List Op) (s : String) :
    (menu.setExitMenuText this (menu.build this ops) s).menuSize =
        (menu.build this ops).menuSize ∧
      (menu.setExitMenuText this (menu.build this ops) s).m_storage.m_entries =
        (s, basicItem.methodItem Method.menuExit this) :: pushedBy ops ∧
      (menu.setExitMenuText this (menu.build this ops) s).m_storage.index 0 =
        some (s, basicItem.methodItem Method.menuExit this) ∧
      (∀ (σ : Type) (h : Hooks σ) (w : World σ),
        ((basicItem.methodItem Method.menuExit this).invoke h w).1 = retval.quit_) ∧
      (∀ i : Nat, 1 ≤ i →
        (menu.setExitMenuText this (menu.build this ops) s).m_storage.index i =
          (menu.build this ops).m_storage.index i) ∧
      (menu.setExitMenuText this (menu.build this ops) s).m_parent =
        (menu.build this ops).m_parent ∧
      (menu.setExitMenuText this (menu.build this ops) s).m_sep = (menu.build this ops).m_sep ∧
      menu.setExitMenuText this (menu.setExitMenuText this (menu.build this ops) s) s =
        menu.setExitMenuText this (menu.build this ops) s := by
  have he := build_entries this ops
  have h1 := setExitMenuText_entries this (menu.build this ops) _ _ _ s he
  refine ⟨?_, ?_, ?_, fun σ h w => rfl, ?_, ?_, ?_, ?_⟩
  · rw [h1]; simp [menu.menuSize, storage.size, he]
  · rw [h1]
  · rw [h1]; simp [storage.index]
  · intro i hi
    obtain ⟨j, rfl⟩ : ∃ j, i = j + 1 := ⟨i - 1, by omega⟩
    rw [h1]
    simp [storage.index, he]
  · rw [h1]
  · rw [h1]
  · rw [h1]
    rw [setExitMenuText_entries this _ s (basicItem.methodItem Method.menuExit this)
      (pushedBy ops) s rfl]

/-- On [Exit, Foo, Bar] the call setExitMenuText("Back") relabels index 0 and keeps the size and
Foo at index 1. -/
theorem C17_setExitMenuText_frame_witness :
    (menu.setExitMenuText 0 fooBar "Back").menuSize = 3 ∧
      (menu.setExitMenuText 0 fooBar "Back").m_storage.index 0 =
        some ("Back", basicItem.methodItem Method.menuExit 0) ∧
      (menu.setExitMenuText 0 fooBar "Back").m_storage.index 1 =
        some ("Foo", basicItem.functionItem 1) :=
  ⟨(C17_setExitMenuText_frame 0 [Op.pushFunctor "Foo" 1, Op.pushFunctor "Bar" 2] "Back").1,
    (C17_setExitMenuText_frame 0 [Op.pushFunctor "Foo" 1, Op.pushFunctor "Bar" 2] "Back").2.2.1,
    (C17_setExitMenuText_frame 0 [Op.pushFunctor "Foo" 1, Op.pushFunctor "Bar" 2]
      "Back").2.2.2.2.1 1 (by decide)⟩

/-! ### The display width -/

theorem toDigitsCore_length_eq :
    ∀ (fuel n : Nat) (ds : List Char), n < fuel →
      (Nat.toDigitsCore 10 fuel n ds).length = ds.length + Nat.log 10 n + 1 := by
  intro fuel
  induction fuel with
  | zero => intro n ds hn; omega
  | succ fuel ih =>
    intro n ds hn
    rw [Nat.toDigitsCore]
    by_cases hz : n / 10 = 0
    · have hlt : n < 10 := by omega
      simp [hz, Nat.log_of_lt hlt]
    · have hge : 10 ≤ n := by omega
      simp only [hz, if_false]
      rw [ih (n / 10) _ (by omega), Nat.log_of_one_lt_of_le (by decide) hge]
      simp only [List.length_cons]
      omega

theorem decimalLength_eq (n : Nat) : decimalLength n = Nat.log 10 n + 1 := by
  unfold decimalLength Nat.repr Nat.toDigits
  rw [String.length, List.asString]
  simp only
  rw [toDigitsCore_length_eq (n + 1) n [] (Nat.lt_succ_self n)]
  simp

theorem decimalLength_mono {i n : Nat} (hi : i ≤ n) : decimalLength i ≤ decimalLength n := by
  rw [decimalLength_eq, decimalLength_eq]
  exact Nat.succ_le_succ (Nat.log_mono_right hi)

theorem decimalLength_digits (k : Nat) (hk : k ≠ 0) :
    decimalLength k = (Nat.digits 10 k).length := by
  rw [decimalLength_eq, Nat.digits_len 10 k (by decide) hk]

theorem lt_pow_decimalLength (k : Nat) : k < 10 ^ decimalLength k := by
  rw [decimalLength_eq]
  exact Nat.lt_pow_succ_log_self (by decide) k

theorem pow_decimalLength_le (k : Nat) (hk : k ≠ 0) : 10 ^ (decimalLength k - 1) ≤ k := by
  rw [decimalLength_eq, Nat.add_sub_cancel]
  exact Nat.pow_log_le_self 10 hk

/-- C16: after initMenu the display width is the larger of the width before and the number of
decimal digits of n + 1, where n is the item count when initMenu reads it and the digits are
counted independently of the code (the digit list of n + 1 in base 10); so n + 1 and every valid
index below n fit in that many columns, the width is at least 2, the separator is " >> ", and a
second initMenu in which no item is pushed changes neither the width nor the separator.  The
count that the code takes from the text of the number is pinned for every k: k is below 10 to
that count, and from k = 1 on not below 10 to the count less one. -/
theorem C16_initMenu_width (onInitMenu : menu × console.menu → menu × console.menu)
    (b : menu) (d : console.menu) (n : Nat)
    (hn : (onInitMenu (b, d)).1.menuSize = n)
    (hprivate : (onInitMenu (b, d)).2.m_width = d.m_width)
    (hsize : n + 1 < SIZE_MOD)
    (hwidth : 2 ≤ d.m_width) :
    console.menu.ctor.m_width = 2 ∧
      (∀ k : Nat, k < 10 ^ decimalLength k ∧ (k ≠ 0 → 10 ^ (decimalLength k - 1) ≤ k)) ∧
      ∀ r : menu × console.menu, r = console.menu.initMenu onInitMenu b d →
        r.2.m_width = max d.m_width (Nat.digits 10 (n + 1)).length ∧
        n + 1 < 10 ^ r.2.m_width ∧
        (d.m_width < r.2.m_width → 10 ^ (r.2.m_width - 1) ≤ n + 1) ∧
        2 ≤ r.2.m_width ∧
        (∀ i : Nat, i < n → (Nat.digits 10 i).length ≤ r.2.m_width ∧ i < 10 ^ r.2.m_width) ∧
        r.1.m_sep = " >> " ∧
        r.1.menuSize = n ∧
        ∀ second : menu × console.menu → menu × console.menu,
          (second (r.1, r.2)).1.menuSize = n →
          (second (r.1, r.2)).2.m_width = r.2.m_width →
          (console.menu.initMenu second r.1 r.2).2.m_width = r.2.m_width ∧
            (console.menu.initMenu second r.1 r.2).1.m_sep = r.1.m_sep := by
  refine ⟨rfl, fun k => ⟨lt_pow_decimalLength k, pow_decimalLength_le k⟩, ?_⟩
  intro r hr
  have hw0 : r.2.m_width = max d.m_width (decimalLength (n + 1)) := by
    rw [hr]
    simp only [console.menu.initMenu, hn, hprivate, Nat.mod_eq_of_lt hsize]
  have hw : r.2.m_width = max d.m_width (Nat.digits 10 (n + 1)).length := by
    rw [hw0, decimalLength_digits (n + 1) (Nat.succ_ne_zero n)]
  have hsep : r.1.m_sep = " >> " := by rw [hr]; rfl
  have hsz : r.1.menuSize = n := by rw [hr, ← hn]; rfl
  have hfit : n + 1 < 10 ^ r.2.m_width := by
    refine lt_of_lt_of_le (lt_pow_decimalLength (n + 1)) ?_
    apply Nat.pow_le_pow_right (by decide)
    rw [hw0]
    exact le_max_right _ _
  refine ⟨hw, hfit, ?_, ?_, ?_, hsep, hsz, ?_⟩
  · intro hlt
    have heq : r.2.m_width = decimalLength (n + 1) := by
      rw [hw0] at hlt ⊢
      rcases max_choice d.m_width (decimalLength (n + 1)) with hm | hm
      · rw [hm] at hlt; exact absurd hlt (lt_irrefl _)
      · exact hm
    rw [heq]
    exact pow_decimalLength_le (n + 1) (Nat.succ_ne_zero n)
  · rw [hw0]; exact le_trans hwidth (le_max_left _ _)
  · intro i hi
    refine ⟨?_, lt_trans (lt_trans hi (Nat.lt_succ_self n)) hfit⟩
    rw [hw]
    exact le_trans (Nat.le_digits_len_le 10 i (n + 1) (by omega)) (le_max_right _ _)
  · intro second hs2 hw2
    refine ⟨?_, by rw [hsep]; rfl⟩
    simp only [console.menu.initMenu, hs2, hw2, Nat.mod_eq_of_lt hsize]
    rw [hw0]
    simp

set_option maxRecDepth 20000 in
/-- A fresh console part (width 2) on a menu of 100 items, with an onInitMenu that does nothing:
the text of 101 has 3 characters, so the width grows to 3, which holds 101 and not less than 100;
the separator is " >> ". -/
theorem C16_initMenu_width_witness :
    hundred.menuSize = 100 ∧ 100 + 1 < SIZE_MOD ∧ 2 ≤ console.menu.ctor.m_width ∧
      (console.menu.initMenu id hundred console.menu.ctor).2.m_width = 3 ∧
      (console.menu.initMenu id hundred console.menu.ctor).2.m_width =
        max 2 (Nat.digits 10 (100 + 1)).length ∧
      100 + 1 < 10 ^ (console.menu.initMenu id hundred console.menu.ctor).2.m_width ∧
      (console.menu.initMenu id hundred console.menu.ctor).1.m_sep = " >> " :=
  ⟨rfl, by decide, by decide, rfl,
    ((C16_initMenu_width id hundred console.menu.ctor 100 rfl rfl (by decide)
      (by decide)).2.2 _ rfl).1,
    ((C16_initMenu_width id hundred console.menu.ctor 100 rfl rfl (by decide)
      (by decide)).2.2 _ rfl).2.1,
    ((C16_initMenu_width id hundred console.menu.ctor 100 rfl rfl (by decide)
      (by decide)).2.2 _ rfl).2.2.2.2.2.1⟩

/-! ### Breadcrumbs: separators and the default identity -/

theorem trail_default {σ : Type} (h : Hooks σ) (heap : Addr → menu)
    (hdef : h.onBreadCrumb = menu.onBreadCrumb) :
    ∀ (l : List Addr) (s : σ),
      trail h heap l false s = (false, s, l.map (fun a => Event.onBreadCrumb a false)) := by
  intro l
  induction l with
  | nil => intro s; rfl
  | cons m rest ih =>
    intro s
    rw [trail]
    simp only [Bool.false_eq_true, if_false, hdef, menu.onBreadCrumb, ih, List.nil_append,
      List.map_cons, List.singleton_append]

/-- C20: when onBreadCrumb is the default of menu (it returns false), a breadcrumb render for a
parent chain of any depth calls onBreadCrumbSep not once: the calls are the before hook, one
onBreadCrumb per menu of the chain from the root down, and the after hook, and breadcrumb
returns false; the console adapter keeps that default. -/
theorem C20_default_identity_no_separator {σ : Type} (h : Hooks σ) (heap : Addr → menu)
    (anc : List Addr) (mk : Addr) (fuel : Nat) (s : σ)
    (hdef : h.onBreadCrumb = menu.onBreadCrumb)
    (hchain : isChain heap none (anc ++ [mk]) = true) (hfuel : anc.length + 1 ≤ fuel) :
    breadcrumb h heap fuel mk s =
        Except.ok (false, s, (anc ++ [mk]).map (fun a => Event.onBreadCrumb a false)) ∧
      _breadcrumb h heap fuel mk s =
        Except.ok (h.onAfterBreadCrumb mk (h.onBeforeBreadCrumb mk s),
          [Event.onBeforeBreadCrumb mk] ++
            (anc ++ [mk]).map (fun a => Event.onBreadCrumb a false) ++
            [Event.onAfterBreadCrumb mk]) ∧
      ([Event.onBeforeBreadCrumb mk] ++
            (anc ++ [mk]).map (fun a => Event.onBreadCrumb a false) ++
            [Event.onAfterBreadCrumb mk]).filter isSeparatorCall = [] ∧
      ∀ (method : Nat → Addr → World console.State → retval × World console.State)
        (functor : Nat → World console.State → retval × World console.State),
        (console.hooks method functor).onBreadCrumb = menu.onBreadCrumb := by
  have hb : ∀ s0 : σ, breadcrumb h heap fuel mk s0 =
      Except.ok (false, s0, (anc ++ [mk]).map (fun a => Event.onBreadCrumb a false)) := by
    intro s0
    rw [breadcrumb_chain h heap anc mk hchain fuel s0 hfuel, trail_default h heap hdef]
  refine ⟨hb s, ?_, ?_, fun _ _ => rfl⟩
  · unfold _breadcrumb
    rw [hb]
  · rw [List.filter_eq_nil_iff]
    intro e he
    simp only [List.mem_append, List.mem_singleton, List.mem_map] at he
    rcases he with (he | ⟨a, -, he⟩) | he <;> subst he <;> simp [isSeparatorCall]

/-- The console adapter on root, A, B nested three deep: the render writes the lead and the end
of the line only, and calls no separator hook. -/
theorem C20_default_identity_no_separator_witness :
    plainConsole.onBreadCrumb = menu.onBreadCrumb ∧
      isChain nested none ([0, 1] ++ [2]) = true ∧
      _breadcrumb plainConsole nested 3 2 (freshConsole []) =
        Except.ok (⟨fun _ => console.menu.ctor,
            [Out.text "Location: ", Out.newline, Out.endl], []⟩,
          [Event.onBeforeBreadCrumb 2, Event.onBreadCrumb 0 false, Event.onBreadCrumb 1 false,
            Event.onBreadCrumb 2 false, Event.onAfterBreadCrumb 2]) :=
  ⟨rfl, by decide,
    (C20_default_identity_no_separator plainConsole nested [0, 1] 2 3 (freshConsole []) rfl
      (by decide) (by decide)).2.1⟩

theorem trail_separators {σ : Type} (h : Hooks σ) (heap : Addr → menu) :
    ∀ (l : List Addr) (above : Option Addr) (shown : Bool) (s : σ),
      isChain heap above l = true →
      ∀ (c : Addr) (str : String),
        Event.onBreadCrumbSep c str ∈ (trail h heap l shown s).2.2 →
        str = (heap c).m_sep ∧ c ∈ l ∧
          ((shown = true ∧ (heap c).m_parent = above) ∨
            ∃ p ∈ l, (heap c).m_parent = some p) := by
  intro l
  induction l with
  | nil => intro above shown s _ c str hmem; simp [trail] at hmem
  | cons m rest ih =>
    intro above shown s hc c str hmem
    simp only [isChain, Bool.and_eq_true, decide_eq_true_eq] at hc
    rw [trail] at hmem
    simp only [List.mem_append, List.mem_singleton] at hmem
    rcases hmem with (hmem | hmem) | hmem
    · cases shown with
      | false => simp at hmem
      | true =>
        simp only [if_true, List.mem_singleton, Event.onBreadCrumbSep.injEq] at hmem
        obtain ⟨rfl, rfl⟩ := hmem
        exact ⟨rfl, List.mem_cons_self _ _, Or.inl ⟨rfl, hc.1⟩⟩
    · cases hmem
    · obtain ⟨h1, h2, h3⟩ := ih (some m) _ _ hc.2 c str hmem
      refine ⟨h1, List.mem_cons_of_mem _ h2, Or.inr ?_⟩
      rcases h3 with ⟨-, hp⟩ | ⟨p, hp, hpp⟩
      · exact ⟨m, List.mem_cons_self _ _, hp⟩
      · exact ⟨p, List.mem_cons_of_mem _ hp, hpp⟩

theorem trail_congr {σ : Type} (h : Hooks σ) (heap heap2 : Addr → menu) :
    ∀ (l : List Addr) (shown : Bool) (s : σ),
      (∀ m ∈ l, (heap2 m).m_sep = (heap m).m_sep) →
      trail h heap2 l shown s = trail h heap l shown s := by
  intro l
  induction l with
  | nil => intro shown s _; rfl
  | cons m rest ih =>
    intro shown s hsep
    rw [trail, trail, hsep m (List.mem_cons_self _ _)]
    rw [ih _ _ (fun x hx => hsep x (List.mem_cons_of_mem _ hx))]

theorem isChain_congr (heap heap2 : Addr → menu)
    (hp : ∀ m : Addr, (heap2 m).m_parent = (heap m).m_parent) :
    ∀ (l : List Addr) (above : Option Addr), isChain heap2 above l = isChain heap above l := by
  intro l
  induction l with
  | nil => intro above; rfl
  | cons m rest ih => intro above; simp only [isChain, hp, ih]

theorem apply_sep (this : Addr) (m : menu) (op : Op) (hop : op.isSeparator = false) :
    (op.apply this m).m_sep = m.m_sep := by
  cases op with
  | push menuText entry cv => rfl
  | pushFunctor menuText f => rfl
  | clearMenu => rfl
  | setParent parent => rfl
  | setBreadcrumbSeparator sep => simp [Op.isSeparator] at hop
  | setExitMenuText exitStr =>
    simp only [Op.apply, menu.setExitMenuText]
    split
    · split <;> rfl
    · rfl

theorem foldl_sep (this : Addr) :
    ∀ (ops : List Op) (m : menu), (∀ op ∈ ops, op.isSeparator = false) →
      (ops.foldl (Op.apply this) m).m_sep = m.m_sep := by
  intro ops
  induction ops with
  | nil => intro m _; rfl
  | cons op ops ih =>
    intro m hops
    rw [List.foldl_cons, ih _ (fun o ho => hops o (List.mem_cons_of_mem _ ho)),
      apply_sep this m op (hops op (List.mem_cons_self _ _))]

/-- C19: in a breadcrumb walk along a parent chain every separator is delivered through the
onBreadCrumbSep hook of a menu C that has a parent in the chain, and carries the separator
string of C itself; so setBreadcrumbSeparator on the active menu leaves the calls made for its
ancestors as they were and changes the string of the last separator only; and a menu on which
setBreadcrumbSeparator was never called has the empty string as its separator. -/
theorem C19_separator_of_child {σ : Type} (h : Hooks σ) (heap : Addr → menu) (anc : List Addr)
    (mk : Addr) (fuel : Nat) (s : σ)
    (hchain : isChain heap none (anc ++ [mk]) = true) (hfuel : anc.length + 1 ≤ fuel) :
    (∃ (b : Bool) (s1 : σ) (t : List Event),
        breadcrumb h heap fuel mk s = Except.ok (b, s1, t) ∧
        ∀ (c : Addr) (str : String), Event.onBreadCrumbSep c str ∈ t →
          str = (heap c).m_sep ∧ c ∈ anc ++ [mk] ∧
            ∃ p ∈ anc ++ [mk], (heap c).m_parent = some p) ∧
      (∀ sep : String, mk ∉ anc →
        breadcrumb h (setSeparatorAt heap mk sep) fuel mk s =
          Except.ok
            ((h.onBreadCrumb mk
                (if (trail h heap anc false s).1 then
                  h.onBreadCrumbSep mk sep (trail h heap anc false s).2.1
                else (trail h heap anc false s).2.1)).1,
              (h.onBreadCrumb mk
                (if (trail h heap anc false s).1 then
                  h.onBreadCrumbSep mk sep (trail h heap anc false s).2.1
                else (trail h heap anc false s).2.1)).2,
              (trail h heap anc false s).2.2 ++
                (if (trail h heap anc false s).1 then [Event.onBreadCrumbSep mk sep]
                  else []) ++
                [Event.onBreadCrumb mk (h.onBreadCrumb mk
                  (if (trail h heap anc false s).1 then
                    h.onBreadCrumbSep mk sep (trail h heap anc false s).2.1
                  else (trail h heap anc false s).2.1)).1])) ∧
      ∀ (this : Addr) (ops : List Op), (∀ op ∈ ops, op.isSeparator = false) →
        (menu.build this ops).m_sep = "" := by
  refine ⟨?_, ?_, ?_⟩
  · refine ⟨_, _, _, breadcrumb_chain h heap anc mk hchain fuel s hfuel, ?_⟩
    intro c str hmem
    obtain ⟨h1, h2, h3⟩ := trail_separators h heap (anc ++ [mk]) none false s hchain c str hmem
    refine ⟨h1, h2, ?_⟩
    rcases h3 with ⟨hf, -⟩ | h3
    · cases hf
    · exact h3
  · intro sep hnot
    have hparent : ∀ m : Addr,
        (setSeparatorAt heap mk sep m).m_parent = (heap m).m_parent := by
      intro m
      unfold setSeparatorAt
      split <;> rfl
    have hchain2 : isChain (setSeparatorAt heap mk sep) none (anc ++ [mk]) = true := by
      rw [isChain_congr heap _ hparent]; exact hchain
    have hanc : trail h (setSeparatorAt heap mk sep) anc false s = trail h heap anc false s := by
      apply trail_congr
      intro m hm
      have hne : m ≠ mk := fun he => hnot (he ▸ hm)
      simp [setSeparatorAt, hne]
    have hmk : (setSeparatorAt heap mk sep mk).m_sep = sep := by
      simp [setSeparatorAt, menu.setBreadcrumbSeparator]
    rw [breadcrumb_chain h _ anc mk hchain2 fuel s hfuel, trail_snoc, hanc, hmk]
  · intro this ops hops
    unfold menu.build
    rw [foldl_sep this ops _ hops]
    rfl

/-- Root (separator "R"), A (separator never set), B (separator " / ", then set to " | "): the
separator before A is the empty string of A, not "R"; the one before B is the string of B, and
setting it changes that last separator only. -/
theorem C19_separator_of_child_witness :
    isChain crumbs none ([0, 1] ++ [2]) = true ∧ [0, 1].length + 1 ≤ 3 ∧ 2 ∉ [0, 1] ∧
      breadcrumb strictHooks crumbs 3 2 [] =
        Except.ok (true, [],
          [Event.onBreadCrumb 0 true, Event.onBreadCrumbSep 1 "", Event.onBreadCrumb 1 true,
            Event.onBreadCrumbSep 2 " / ", Event.onBreadCrumb 2 true]) ∧
      breadcrumb strictHooks (setSeparatorAt crumbs 2 " | ") 3 2 [] =
        Except.ok (true, [],
          [Event.onBreadCrumb 0 true, Event.onBreadCrumbSep 1 "", Event.onBreadCrumb 1 true,
            Event.onBreadCrumbSep 2 " | ", Event.onBreadCrumb 2 true]) :=
  ⟨by decide, by decide, by decide, rfl,
    (C19_separator_of_child strictHooks crumbs [0, 1] 2 3 [] (by decide) (by decide)).2.1
      " | " (by decide)⟩

/-! ### The console adapter inside the loop -/

/-- What the breadcrumb hooks leave alone, the breadcrumb walk leaves alone. -/
theorem breadcrumb_keeps {σ α : Type} (h : Hooks σ) (heap : Addr → menu) (f : σ → α)
    (hcrumb : ∀ (a : Addr) (s : σ), f (h.onBreadCrumb a s).2 = f s)
    (hsep : ∀ (a : Addr) (str : String) (s : σ), f (h.onBreadCrumbSep a str s) = f s) :
    ∀ (fuel : Nat) (this : Addr) (s : σ) (b : Bool) (s1 : σ) (t : List Event),
      breadcrumb h heap fuel this s = Except.ok (b, s1, t) → f s1 = f s := by
  intro fuel
  induction fuel with
  | zero => intro this s b s1 t hb; simp [breadcrumb] at hb
  | succ fuel ih =>
    intro this s b s1 t hb
    rw [breadcrumb] at hb
    cases hp : (heap this).m_parent with
    | none =>
      simp only [hp] at hb
      injection hb with hb
      simp only [Prod.mk.injEq] at hb
      obtain ⟨-, rfl, -⟩ := hb
      exact hcrumb this s
    | some parent =>
      simp only [hp] at hb
      cases hr : breadcrumb h heap fuel parent s with
      | error e => simp [hr] at hb
      | ok r =>
        obtain ⟨b0, s0, t0⟩ := r
        have h0 := ih parent s b0 s0 t0 hr
        simp only [hr] at hb
        cases b0 with
        | true =>
          simp only [if_true] at hb
          injection hb with hb
          simp only [Prod.mk.injEq] at hb
          obtain ⟨-, rfl, -⟩ := hb
          rw [hcrumb, hsep, h0]
        | false =>
          simp only [Bool.false_eq_true, if_false] at hb
          injection hb with hb
          simp only [Prod.mk.injEq] at hb
          obtain ⟨-, rfl, -⟩ := hb
          rw [hcrumb, h0]

theorem renderLoop_keeps {σ α : Type} (h : Hooks σ) (this : Addr) (f : σ → α)
    (hitem : ∀ (a : Addr) (index : Nat) (item : String) (s : σ),
      f (h.displayItem a index item s) = f s) :
    ∀ (entries : List (String × basicItem)) (index : Nat) (s : σ),
      f (renderLoop h this entries index s).1 = f s := by
  intro entries
  induction entries with
  | nil => intro index s; rfl
  | cons item rest ih =>
    intro index s
    rw [renderLoop]
    by_cases hi : index ≠ 0
    · rw [if_pos hi]
      simp only
      rw [ih, hitem]
    · rw [if_neg hi, ih]

/-- The selection of a frame is what `userInput` returns in a state that agrees with the state
on entry on everything the rendering hooks leave alone. -/
theorem frame_input {σ α : Type} (h : Hooks σ) (depth : Nat) (this : Addr) (w w0 : World σ)
    (input : Nat) (t0 : List Event) (f : σ → α)
    (hstart : ∀ (a : Addr) (s : σ), f (h.onStartMenu a s) = f s)
    (hbefore : ∀ (a : Addr) (s : σ), f (h.onBeforeBreadCrumb a s) = f s)
    (hafter : ∀ (a : Addr) (s : σ), f (h.onAfterBreadCrumb a s) = f s)
    (hcrumb : ∀ (a : Addr) (s : σ), f (h.onBreadCrumb a s).2 = f s)
    (hsep : ∀ (a : Addr) (str : String) (s : σ), f (h.onBreadCrumbSep a str s) = f s)
    (hitem : ∀ (a : Addr) (index : Nat) (item : String) (s : σ),
      f (h.displayItem a index item s) = f s)
    (hf : frame h depth this w = Except.ok (input, w0, t0)) :
    ∃ s : σ, f s = f w.user ∧ input = (h.userInput this s).1 ∧
      w0.user = (h.userInput this s).2 := by
  unfold frame at hf
  cases hb : _breadcrumb h w.heap depth this (h.onStartMenu this w.user) with
  | error e => simp [hb] at hf
  | ok r =>
    obtain ⟨s1, tb⟩ := r
    simp only [hb] at hf
    have hs1 : f s1 = f w.user := by
      unfold _breadcrumb at hb
      cases hr : breadcrumb h w.heap depth this
          (h.onBeforeBreadCrumb this (h.onStartMenu this w.user)) with
      | error e => simp [hr] at hb
      | ok r2 =>
        obtain ⟨b2, s2, t2⟩ := r2
        simp only [hr] at hb
        injection hb with hb
        simp only [Prod.mk.injEq] at hb
        obtain ⟨rfl, -⟩ := hb
        rw [hafter, breadcrumb_keeps h w.heap f hcrumb hsep depth this _ b2 s2 t2 hr, hbefore,
          hstart]
    cases hi : (w.heap this).m_storage.index 0 with
    | none => simp [hi] at hf
    | some first =>
      simp only [hi] at hf
      injection hf with hf
      simp only [Prod.mk.injEq] at hf
      obtain ⟨rfl, rfl, -⟩ := hf
      refine ⟨_, ?_, rfl, rfl⟩
      rw [hitem, renderLoop_keeps h this f hitem, hs1]

theorem userInput_failed (d : console.menu) (cout : List Out) (cin : List (Option Nat))
    (hfail : cin.headD none = none) : (d.userInput cout cin).1 = size_t (-1) := by
  unfold console.menu.userInput
  cases cin with
  | nil => rfl
  | cons x rest =>
    cases x with
    | none => rfl
    | some v => simp at hfail

/-- C18: when the extraction of the selection fails, userInput of the console adapter returns
-1 converted to size_t, the largest size_t; it is at or above the item count of any registry (a
count is a size_t), so the pass calls onBadInput with exactly that value, which the adapter
answers with true, then onPause, and invokes no item. -/
theorem C18_failed_read_sentinel
    (method : Nat → Addr → World console.State → retval × World console.State)
    (functor : Nat → World console.State → retval × World console.State)
    (depth : Nat) (this : Addr) (init : Nat) (w w0 : World console.State) (input : Nat)
    (t0 : List Event)
    (hfail : w.user.cin.headD none = none)
    (hsize : (w.heap this).menuSize ≤ SIZE_MOD - 1)
    (hf : frame (console.hooks method functor) depth this w = Except.ok (input, w0, t0)) :
    input = size_t (-1) ∧ size_t (-1) = SIZE_MOD - 1 ∧ (w.heap this).menuSize ≤ input ∧
      ∃ w1 : World console.State,
        dispatch (console.hooks method functor) this init input w0 =
          Except.ok (some init, w1,
            [Event.onBadInput this (size_t (-1)) true, Event.onPause this]) ∧
        iteration (console.hooks method functor) depth this init w =
          Except.ok (some init, w1,
            t0 ++ [Event.onBadInput this (size_t (-1)) true, Event.onPause this]) ∧
        (t0 ++ [Event.onBadInput this (size_t (-1)) true, Event.onPause this]).filter
          isInvoke = [] := by
  have hmax : size_t (-1) = SIZE_MOD - 1 := by decide
  obtain ⟨s, hs, hin, -⟩ := frame_input (console.hooks method functor) depth this w w0 input t0
    console.State.cin (fun _ _ => rfl) (fun _ _ => rfl) (fun _ _ => rfl) (fun _ _ => rfl)
    (fun _ _ _ => rfl) (fun _ _ _ _ => rfl) hf
  have hinput : input = size_t (-1) := by
    rw [hin]
    exact userInput_failed (s.self this) s.cout s.cin (by rw [hs]; exact hfail)
  have hle : (w.heap this).menuSize ≤ input := by rw [hinput, hmax]; exact hsize
  have hh := frame_heap _ depth this w w0 input t0 hf
  have hd := dispatch_bad (console.hooks method functor) this init input w0
    (by rw [hh]; exact hle)
  have htrue : ((console.hooks method functor).onBadInput this input w0.user).1 = true := rfl
  rw [if_neg (by simp [htrue]), hinput] at hd
  refine ⟨hinput, hmax, hle, _, by rw [hinput]; exact hd, ?_, ?_⟩
  · unfold iteration
    rw [hf]
    simp only
    rw [hinput, hd]
  · rw [List.filter_append, frame_no_invoke _ depth this w w0 input t0 hf]
    rfl

/-- On [Exit, Foo, Bar] with a malformed entry on the input, the frame reads the largest size_t
and the pass answers with onBadInput on that value and onPause. -/
theorem C18_failed_read_sentinel_witness :
    (consoleWorld [none]).user.cin.headD none = none ∧
      fooBar.menuSize ≤ SIZE_MOD - 1 ∧
      frame plainConsole 1 0 (consoleWorld [none]) =
        Except.ok (SIZE_MOD - 1, ⟨fun _ => fooBar, ⟨fun _ => console.menu.ctor, fooBarScreen, []⟩⟩,
          fooBarFrame (SIZE_MOD - 1)) ∧
      SIZE_MOD - 1 = size_t (-1) :=
  ⟨rfl, by decide, rfl,
    (C18_failed_read_sentinel (fun _ _ w => (retval.return_, w)) (fun _ w => (retval.return_, w))
      1 0 4 (consoleWorld [none]) ⟨fun _ => fooBar, ⟨fun _ => console.menu.ctor, fooBarScreen, []⟩⟩
      (SIZE_MOD - 1) (fooBarFrame (SIZE_MOD - 1)) rfl (by decide) rfl).1⟩

end wy
